import Mathlib

/-!
Shallow embedding of the road-analysis planners.

`AStar` embeds src/planners/astar.py: an occupancy grid over integer
coordinates, 4-connected neighbor generation, the Manhattan heuristic and the
open-set search loop of `AStar.find_path`.  Python dicts are embedded as
association lists, the open set as a list in insertion order (Python's `min`
keeps the first minimum it meets in iteration order), and the two `while`
loops of the source are embedded as a well-founded recursion (the search loop,
whose termination is proved by a lexicographic measure) and a fueled recursion
(back-pointer reconstruction, with the fuel proved sufficient).

`DWA` embeds src/planners/dwa.py over the real numbers; it comes further down
in the file.
-/

set_option maxHeartbeats 1000000

namespace RoadAnalysis

/-- Grid positions: integer pairs `(x, y)`, as the Python tuples. -/
abbrev Pos : Type := ℤ × ℤ

namespace AStar

/-- numpy index semantics used by `self.grid[y][x] = 1` in the constructor:
a negative index counts from the end of the axis. -/
def wrapIdx (n i : ℤ) : ℤ := if i < 0 then i + n else i

/-- The state the `AStar.__init__` constructor builds: width, height and the
occupancy array (`grid y x = true` iff `self.grid[y][x] == 1`). -/
structure Grid where
  width : ℤ
  height : ℤ
  grid : ℤ → ℤ → Bool

/-- `AStar.__init__`: zero grid, then `grid[y][x] = 1` for each obstacle. -/
def make (width height : ℤ) (obstacles : List Pos) : Grid :=
  { width := width
    height := height
    grid := fun y x =>
      obstacles.any fun o => decide (wrapIdx height o.2 = y) && decide (wrapIdx width o.1 = x) }

/-- `AStar.is_valid_position`: inside the map and not occupied. -/
def is_valid_position (a : Grid) (p : Pos) : Bool :=
  decide (0 ≤ p.1) && decide (p.1 < a.width) &&
  decide (0 ≤ p.2) && decide (p.2 < a.height) && !(a.grid p.2 p.1)

/-- The four 4-connected direction offsets, in source order (up, right, down, left). -/
def directions : List Pos := [(0, 1), (1, 0), (0, -1), (-1, 0)]

/-- `AStar.get_neighbors`: the four axis neighbors filtered by validity. -/
def get_neighbors (a : Grid) (p : Pos) : List Pos :=
  (directions.map fun d => (p.1 + d.1, p.2 + d.2)).filter fun q => is_valid_position a q

/-- `AStar.heuristic`: Manhattan distance. -/
def heuristic (a b : Pos) : ℕ := (a.1 - b.1).natAbs + (a.2 - b.2).natAbs

/-- Association-list lookup, embedding Python dict indexing. -/
def alookup {β : Type} : List (Pos × β) → Pos → Option β
  | [], _ => none
  | (k, v) :: t, p => if p = k then some v else alookup t p

/-- Association-list update, embedding Python dict assignment. -/
def aset {β : Type} : List (Pos × β) → Pos → β → List (Pos × β)
  | [], p, v => [(p, v)]
  | (k, w) :: t, p, v => if p = k then (p, v) :: t else (k, w) :: aset t p v

/-- The mutable state of the `find_path` search loop. -/
structure SearchState where
  open_set : List Pos
  came_from : List (Pos × Pos)
  g_score : List (Pos × ℕ)
  f_score : List (Pos × ℕ)

/-- `f_score.get(x, float('inf'))`. -/
def fGet (s : SearchState) (p : Pos) : ℕ∞ :=
  match alookup s.f_score p with
  | some n => (n : ℕ∞)
  | none => ⊤

/-- `min(open_set, key=...)`: the first element attaining the minimal key in
iteration order. -/
def minBy (f : Pos → ℕ∞) : Pos → List Pos → Pos
  | x, [] => x
  | x, y :: t => if f y < f x then minBy f y t else minBy f x t

/-- One step of the neighbor relaxation in the body of the search loop
(lines 57-64 of astar.py). -/
def relaxOne (a : Grid) (goal current : Pos) (s : SearchState) (nb : Pos) : SearchState :=
  let tentative := (alookup s.g_score current).getD 0 + 1
  match alookup s.g_score nb with
  | none =>
    { open_set := if nb ∈ s.open_set then s.open_set else s.open_set ++ [nb]
      came_from := aset s.came_from nb current
      g_score := aset s.g_score nb tentative
      f_score := aset s.f_score nb (tentative + heuristic nb goal) }
  | some gn =>
    if tentative < gn then
      { open_set := if nb ∈ s.open_set then s.open_set else s.open_set ++ [nb]
        came_from := aset s.came_from nb current
        g_score := aset s.g_score nb tentative
        f_score := aset s.f_score nb (tentative + heuristic nb goal) }
    else s

/-- The whole `for neighbor in self.get_neighbors(*current)` body. -/
def expand (a : Grid) (goal current : Pos) (s : SearchState) : SearchState :=
  (get_neighbors a current).foldl (relaxOne a goal current) s

/-- The path-reconstruction `while current in came_from` loop, embedded with a
fuel argument; the fuel passed by `search` is proved sufficient because the
`g_score` of the back-pointer chain strictly decreases. -/
def reconAux (cf : List (Pos × Pos)) (start : Pos) : ℕ → Pos → List Pos
  | 0, _ => []
  | fuel + 1, current =>
    match alookup cf current with
    | some prev => current :: reconAux cf start fuel prev
    | none => [start]

/-- All in-bounds cells: the finite universe used by the termination measure. -/
def cellBox (a : Grid) : Finset Pos :=
  Finset.Icc 0 (a.width - 1) ×ˢ Finset.Icc 0 (a.height - 1)

/-- Number of in-bounds cells without a `g_score` yet. -/
def measD (a : Grid) (s : SearchState) : ℕ :=
  ((cellBox a).filter fun p => alookup s.g_score p = none).card

/-- Total of the recorded `g_score`s over the in-bounds cells. -/
def measS (a : Grid) (s : SearchState) : ℕ :=
  Finset.sum (cellBox a) fun p => (alookup s.g_score p).getD 0

/-- Strict decrease of the pair `(measD, measS)` in lexicographic order. -/
def GLt (a : Grid) (s' s : SearchState) : Prop :=
  measD a s' < measD a s ∨ (measD a s' = measD a s ∧ measS a s' < measS a s)

theorem GLt.trans {a : Grid} {s₁ s₂ s₃ : SearchState}
    (h₁ : GLt a s₂ s₁) (h₂ : GLt a s₃ s₂) : GLt a s₃ s₁ := by
  rcases h₁ with h₁ | ⟨e₁, l₁⟩ <;> rcases h₂ with h₂ | ⟨e₂, l₂⟩
  · exact Or.inl (h₂.trans h₁)
  · exact Or.inl (e₂ ▸ h₁)
  · exact Or.inl (lt_of_lt_of_le h₂ (le_of_eq e₁))
  · exact Or.inr ⟨e₂.trans e₁, l₂.trans l₁⟩

theorem alookup_aset_self {β : Type} (m : List (Pos × β)) (k : Pos) (v : β) :
    alookup (aset m k v) k = some v := by
  induction m with
  | nil => simp [alookup, aset]
  | cons hd t ih =>
    obtain ⟨k', v'⟩ := hd
    by_cases h : k = k' <;> simp [alookup, aset, h, ih]

theorem alookup_aset_ne {β : Type} (m : List (Pos × β)) (k p : Pos) (v : β)
    (h : p ≠ k) : alookup (aset m k v) p = alookup m p := by
  induction m with
  | nil => simp [alookup, aset, h]
  | cons hd t ih =>
    obtain ⟨k', v'⟩ := hd
    by_cases hk : k = k'
    · subst hk
      simp [alookup, aset, h]
    · by_cases hp : p = k' <;> simp [alookup, aset, hk, hp, ih]

theorem minBy_mem (f : Pos → ℕ∞) (x : Pos) (l : List Pos) :
    minBy f x l = x ∨ minBy f x l ∈ l := by
  induction l generalizing x with
  | nil => exact Or.inl rfl
  | cons y t ih =>
    by_cases h : f y < f x
    · simp only [minBy, if_pos h]
      rcases ih y with h' | h'
      · exact Or.inr (by simp [h'])
      · exact Or.inr (List.mem_cons_of_mem _ h')
    · simp only [minBy, if_neg h]
      rcases ih x with h' | h'
      · exact Or.inl h'
      · exact Or.inr (List.mem_cons_of_mem _ h')

theorem minBy_le (f : Pos → ℕ∞) (x : Pos) (l : List Pos) :
    f (minBy f x l) ≤ f x ∧ ∀ y ∈ l, f (minBy f x l) ≤ f y := by
  induction l generalizing x with
  | nil => exact ⟨le_refl _, by simp⟩
  | cons y t ih =>
    by_cases h : f y < f x
    · simp only [minBy, if_pos h]
      refine ⟨le_of_lt (lt_of_le_of_lt (ih y).1 h), ?_⟩
      intro z hz
      rcases List.mem_cons.mp hz with rfl | hz
      · exact (ih z).1
      · exact (ih y).2 z hz
    · simp only [minBy, if_neg h]
      refine ⟨(ih x).1, ?_⟩
      intro z hz
      rcases List.mem_cons.mp hz with rfl | hz
      · exact le_trans (ih x).1 (not_lt.mp h)
      · exact (ih x).2 z hz

/-- A valid position lies in the finite cell universe. -/
theorem valid_mem_cellBox {a : Grid} {p : Pos} (h : is_valid_position a p = true) :
    p ∈ cellBox a := by
  simp only [is_valid_position, Bool.and_eq_true, decide_eq_true_eq] at h
  simp only [cellBox, Finset.mem_product, Finset.mem_Icc]
  omega

/-- Effect of one relaxation step: either the state is unchanged, or exactly
the key `nb` of `g_score` was set to a strictly better value and the open set
only grew. -/
theorem relaxOne_cases (a : Grid) (goal current : Pos) (s : SearchState) (nb : Pos) :
    relaxOne a goal current s nb = s ∨
    (∃ t : ℕ,
      (relaxOne a goal current s nb).g_score = aset s.g_score nb t ∧
      (alookup s.g_score nb = none ∨ ∃ gn, alookup s.g_score nb = some gn ∧ t < gn)) := by
  rcases hg : alookup s.g_score nb with _ | gn
  · refine Or.inr ⟨(alookup s.g_score current).getD 0 + 1, ?_, Or.inl rfl⟩
    simp only [relaxOne, hg]
  · by_cases hlt : (alookup s.g_score current).getD 0 + 1 < gn
    · refine Or.inr ⟨(alookup s.g_score current).getD 0 + 1, ?_, Or.inr ⟨gn, rfl, hlt⟩⟩
      simp only [relaxOne, hg, if_pos hlt]
    · refine Or.inl ?_
      simp only [relaxOne, hg, if_neg hlt]

theorem gLt_of_update {a : Grid} {s s' : SearchState} {nb : Pos} {t : ℕ}
    (hval : is_valid_position a nb = true)
    (hset : s'.g_score = aset s.g_score nb t)
    (hold : alookup s.g_score nb = none ∨ ∃ gn, alookup s.g_score nb = some gn ∧ t < gn) :
    GLt a s' s := by
  have hmem : nb ∈ cellBox a := valid_mem_cellBox hval
  rcases hold with hnone | ⟨gn, hsome, hlt⟩
  · left
    unfold measD
    have hss : ((cellBox a).filter fun p => alookup s'.g_score p = none) ⊂
        ((cellBox a).filter fun p => alookup s.g_score p = none) := by
      constructor
      · intro p hp
        simp only [Finset.mem_filter] at hp ⊢
        refine ⟨hp.1, ?_⟩
        by_cases hpn : p = nb
        · subst hpn
          rw [hset, alookup_aset_self] at hp
          exact absurd hp.2 (by simp)
        · rw [hset, alookup_aset_ne _ _ _ _ hpn] at hp
          exact hp.2
      · intro hsub
        have : nb ∈ (cellBox a).filter fun p => alookup s.g_score p = none := by
          simp only [Finset.mem_filter]
          exact ⟨hmem, hnone⟩
        have h2 := hsub this
        simp only [Finset.mem_filter, hset, alookup_aset_self] at h2
        exact absurd h2.2 (by simp)
    exact Finset.card_lt_card hss
  · right
    constructor
    · unfold measD
      congr 1
      apply Finset.filter_congr
      intro p _
      by_cases hpn : p = nb
      · subst hpn
        rw [hset, alookup_aset_self, hsome]
        simp
      · rw [hset, alookup_aset_ne _ _ _ _ hpn]
    · unfold measS
      apply Finset.sum_lt_sum
      · intro p _
        by_cases hpn : p = nb
        · subst hpn
          rw [hset, alookup_aset_self, hsome]
          exact le_of_lt hlt
        · rw [hset, alookup_aset_ne _ _ _ _ hpn]
      · refine ⟨nb, hmem, ?_⟩
        rw [hset, alookup_aset_self, hsome]
        exact hlt

/-- Effect of a full expansion fold: the lexicographic g-measure decreases or
the state is untouched. -/
theorem fold_relax_cases (a : Grid) (goal current : Pos) :
    ∀ (nbs : List Pos) (s : SearchState), (∀ nb ∈ nbs, is_valid_position a nb = true) →
    nbs.foldl (relaxOne a goal current) s = s ∨ GLt a (nbs.foldl (relaxOne a goal current) s) s := by
  intro nbs
  induction nbs with
  | nil => intro s _; exact Or.inl rfl
  | cons nb t ih =>
    intro s hval
    have hnb : is_valid_position a nb = true := hval nb (by simp)
    have ht : ∀ q ∈ t, is_valid_position a q = true := fun q hq => hval q (by simp [hq])
    simp only [List.foldl_cons]
    rcases relaxOne_cases a goal current s nb with heq | ⟨tval, hset, hold⟩
    · rw [heq]
      exact ih s ht
    · have h1 : GLt a (relaxOne a goal current s nb) s := gLt_of_update hnb hset hold
      rcases ih (relaxOne a goal current s nb) ht with heq2 | h2
      · rw [heq2]
        exact Or.inr h1
      · exact Or.inr (GLt.trans h1 h2)

theorem measD_open_irrel (a : Grid) (s : SearchState) (o : List Pos) :
    measD a { s with open_set := o } = measD a s := rfl

theorem get_neighbors_valid (a : Grid) (p : Pos) :
    ∀ nb ∈ get_neighbors a p, is_valid_position a nb = true := by
  intro nb hnb
  simp only [get_neighbors, List.mem_filter] at hnb
  exact hnb.2

/-- The combined decrease used by the termination proof of `search`. -/
theorem step_decreases (a : Grid) (goal current : Pos) (s : SearchState)
    (hc : current ∈ s.open_set) :
    Prod.Lex (· < ·) (Prod.Lex (· < ·) (· < ·))
      (measD a (expand a goal current { s with open_set := s.open_set.erase current }),
        measS a (expand a goal current { s with open_set := s.open_set.erase current }),
        (expand a goal current { s with open_set := s.open_set.erase current }).open_set.length)
      (measD a s, measS a s, s.open_set.length) := by
  rcases fold_relax_cases a goal current (get_neighbors a current)
      { s with open_set := s.open_set.erase current }
      (get_neighbors_valid a current) with heq | hlt
  · have h1 : measD a (expand a goal current { s with open_set := s.open_set.erase current }) =
        measD a s := by unfold expand; rw [heq]; rfl
    have h2 : measS a (expand a goal current { s with open_set := s.open_set.erase current }) =
        measS a s := by unfold expand; rw [heq]; rfl
    have h3 : (expand a goal current
        { s with open_set := s.open_set.erase current }).open_set.length <
        s.open_set.length := by
      unfold expand
      rw [heq]
      have hpos : 0 < s.open_set.length := List.length_pos.mpr (List.ne_nil_of_mem hc)
      show (s.open_set.erase current).length < s.open_set.length
      rw [List.length_erase_of_mem hc]
      omega
    rw [h1, h2]
    exact Prod.Lex.right _ (Prod.Lex.right _ h3)
  · rcases hlt with hD | ⟨hDe, hS⟩
    · have h1 : measD a (expand a goal current { s with open_set := s.open_set.erase current }) <
          measD a s := hD
      exact Prod.Lex.left _ _ h1
    · have h1 : measD a (expand a goal current { s with open_set := s.open_set.erase current }) =
          measD a s := hDe
      have h2 : measS a (expand a goal current { s with open_set := s.open_set.erase current }) <
          measS a s := hS
      rw [h1]
      exact Prod.Lex.right _ (Prod.Lex.left _ _ h2)

/-- The `while open_set:` loop of `AStar.find_path` (lines 44-67).  Termination:
each iteration either gives a new cell its first `g_score`, or strictly lowers
some recorded `g_score`, or merely shrinks the open set. -/
def search (a : Grid) (start goal : Pos) (s : SearchState) : Option (List Pos) :=
  match hopen : s.open_set with
  | [] => none
  | c :: rest =>
    let current := minBy (fGet s) c rest
    if current = goal then
      some (reconAux s.came_from start ((alookup s.g_score goal).getD 0 + 1) goal).reverse
    else
      search a start goal (expand a goal current { s with open_set := s.open_set.erase current })
termination_by (measD a s, measS a s, s.open_set.length)
decreasing_by
  refine step_decreases a goal current s ?_
  rw [hopen]
  show minBy (fGet s) c rest ∈ c :: rest
  rcases minBy_mem (fGet s) c rest with h | h
  · rw [h]; exact List.mem_cons_self c rest
  · exact List.mem_cons_of_mem _ h

/-- One 4-connected unit step: Manhattan distance exactly 1. -/
def UnitStep (p q : Pos) : Prop := heuristic p q = 1

/-- A valid 4-connected path from `start` to `goal`: nonempty, endpoints as
given, every cell valid, consecutive cells one unit apart in one axis. -/
def IsPath (a : Grid) (start goal : Pos) (l : List Pos) : Prop :=
  l ≠ [] ∧ l.head? = some start ∧ l.getLast? = some goal ∧
  (∀ p ∈ l, is_valid_position a p = true) ∧ l.Chain' UnitStep

/-- Some valid 4-connected path joins `start` to `goal`. -/
def Reachable (a : Grid) (start goal : Pos) : Prop :=
  ∃ l, IsPath a start goal l

/-- A grid with every cell free. -/
def FreeGrid (a : Grid) : Prop := ∀ y x, a.grid y x = false

theorem mem_get_neighbors {a : Grid} {p q : Pos} :
    q ∈ get_neighbors a p ↔ (is_valid_position a q = true ∧ heuristic p q = 1) := by
  simp only [get_neighbors, List.mem_filter, List.mem_map, directions]
  constructor
  · rintro ⟨⟨d, hd, rfl⟩, hv⟩
    refine ⟨hv, ?_⟩
    simp only [List.mem_cons, List.not_mem_nil, or_false] at hd
    rcases hd with rfl | rfl | rfl | rfl <;> simp [heuristic] <;> omega
  · rintro ⟨hv, hh⟩
    refine ⟨?_, hv⟩
    simp only [heuristic] at hh
    have hcases : (q.1 = p.1 ∧ q.2 = p.2 + 1) ∨ (q.1 = p.1 + 1 ∧ q.2 = p.2) ∨
        (q.1 = p.1 ∧ q.2 = p.2 - 1) ∨ (q.1 = p.1 - 1 ∧ q.2 = p.2) := by omega
    obtain ⟨q1, q2⟩ := q
    simp only [Prod.mk.injEq] at hcases ⊢
    rcases hcases with ⟨h1, h2⟩ | ⟨h1, h2⟩ | ⟨h1, h2⟩ | ⟨h1, h2⟩
    · refine ⟨(0, 1), by simp, ?_⟩
      exact ⟨by show p.1 + 0 = q1; omega, by show p.2 + 1 = q2; omega⟩
    · refine ⟨(1, 0), by simp, ?_⟩
      exact ⟨by show p.1 + 1 = q1; omega, by show p.2 + 0 = q2; omega⟩
    · refine ⟨(0, -1), by simp, ?_⟩
      exact ⟨by show p.1 + 0 = q1; omega, by show p.2 + -1 = q2; omega⟩
    · refine ⟨(-1, 0), by simp, ?_⟩
      exact ⟨by show p.1 + -1 = q1; omega, by show p.2 + 0 = q2; omega⟩

theorem heuristic_self (p : Pos) : heuristic p p = 0 := by
  simp [heuristic]

theorem heuristic_eq_zero {p q : Pos} (h : heuristic p q = 0) : p = q := by
  simp only [heuristic] at h
  obtain ⟨p1, p2⟩ := p
  obtain ⟨q1, q2⟩ := q
  simp only [Prod.mk.injEq]
  omega

theorem heuristic_comm (p q : Pos) : heuristic p q = heuristic q p := by
  simp only [heuristic]
  omega

theorem heuristic_triangle (p q r : Pos) :
    heuristic p r ≤ heuristic p q + heuristic q r := by
  simp only [heuristic]
  omega

/-- Any 4-connected chain from `u` to `v` needs at least `heuristic u v` steps. -/
theorem chain_manhattan :
    ∀ (l : List Pos) (u v : Pos), l.head? = some u → l.getLast? = some v →
      l.Chain' UnitStep → heuristic u v + 1 ≤ l.length := by
  intro l
  induction l with
  | nil => intro u v h; simp at h
  | cons x t ih =>
    intro u v hu hv hc
    simp only [List.head?_cons, Option.some.injEq] at hu
    subst hu
    cases t with
    | nil =>
      simp only [List.getLast?_singleton, Option.some.injEq] at hv
      subst hv
      simp [heuristic_self]
    | cons w t' =>
      have hc' := List.chain'_cons.mp hc
      have hlast : (w :: t').getLast? = some v := by
        rw [List.getLast?_cons_cons] at hv
        exact hv
      have hrec := ih w v rfl hlast hc'.2
      have htri := heuristic_triangle x w v
      have hstep : heuristic x w = 1 := hc'.1
      simp only [List.length_cons] at hrec ⊢
      omega

/-- The next cell of the canonical monotone walk from `p` toward `g`
(used only in proofs, to exhibit geodesics on obstacle-free grids). -/
def stepToward (p g : Pos) : Pos :=
  if p.1 < g.1 then (p.1 + 1, p.2)
  else if g.1 < p.1 then (p.1 - 1, p.2)
  else if p.2 < g.2 then (p.1, p.2 + 1)
  else (p.1, p.2 - 1)

theorem stepToward_spec {p g : Pos} (h : p ≠ g) :
    heuristic p (stepToward p g) = 1 ∧
    heuristic (stepToward p g) g + 1 = heuristic p g ∧
    (min p.1 g.1 ≤ (stepToward p g).1 ∧ (stepToward p g).1 ≤ max p.1 g.1) ∧
    (min p.2 g.2 ≤ (stepToward p g).2 ∧ (stepToward p g).2 ≤ max p.2 g.2) := by
  obtain ⟨p1, p2⟩ := p
  obtain ⟨g1, g2⟩ := g
  have hne : p1 ≠ g1 ∨ p2 ≠ g2 := by
    by_contra hcon
    push_neg at hcon
    exact h (by simp only [Prod.mk.injEq]; exact ⟨hcon.1, hcon.2⟩)
  by_cases h1 : p1 < g1
  · have hstep : stepToward (p1, p2) (g1, g2) = (p1 + 1, p2) := by
      simp [stepToward, h1]
    rw [hstep]
    simp only [heuristic]
    refine ⟨by omega, by omega, by constructor <;> simp <;> omega,
      by constructor <;> simp <;> omega⟩
  · by_cases h2 : g1 < p1
    · have hstep : stepToward (p1, p2) (g1, g2) = (p1 - 1, p2) := by
        simp [stepToward, h1, h2]
      rw [hstep]
      simp only [heuristic]
      refine ⟨by omega, by omega, by constructor <;> simp <;> omega,
        by constructor <;> simp <;> omega⟩
    · by_cases h3 : p2 < g2
      · have hstep : stepToward (p1, p2) (g1, g2) = (p1, p2 + 1) := by
          simp [stepToward, h1, h2, h3]
        rw [hstep]
        simp only [heuristic]
        refine ⟨by omega, by omega, by constructor <;> simp <;> omega,
          by constructor <;> simp <;> omega⟩
      · have hstep : stepToward (p1, p2) (g1, g2) = (p1, p2 - 1) := by
          simp [stepToward, h1, h2, h3]
        rw [hstep]
        simp only [heuristic]
        refine ⟨by omega, by omega, by constructor <;> simp <;> omega,
          by constructor <;> simp <;> omega⟩

/-- On an obstacle-free grid, in-bounds validity follows from the bounds. -/
theorem free_valid {a : Grid} (hfree : FreeGrid a) {p : Pos}
    (h1 : 0 ≤ p.1) (h2 : p.1 < a.width) (h3 : 0 ≤ p.2) (h4 : p.2 < a.height) :
    is_valid_position a p = true := by
  simp only [is_valid_position, Bool.and_eq_true, decide_eq_true_eq, Bool.not_eq_true']
  exact ⟨⟨⟨⟨h1, h2⟩, h3⟩, h4⟩, hfree p.2 p.1⟩

theorem valid_bounds {a : Grid} {p : Pos} (h : is_valid_position a p = true) :
    0 ≤ p.1 ∧ p.1 < a.width ∧ 0 ≤ p.2 ∧ p.2 < a.height := by
  simp only [is_valid_position, Bool.and_eq_true, decide_eq_true_eq] at h
  exact ⟨h.1.1.1.1, h.1.1.1.2, h.1.1.2, h.1.2⟩

/-- On an obstacle-free grid any two valid cells are joined by a valid path
(the canonical monotone walk). -/
theorem free_reachable {a : Grid} (hfree : FreeGrid a) :
    ∀ (d : ℕ) (start goal : Pos), heuristic start goal = d →
      is_valid_position a start = true → is_valid_position a goal = true →
      Reachable a start goal := by
  intro d
  induction d using Nat.strong_induction_on with
  | _ d ih =>
    intro start goal hd hs hg
    by_cases heq : start = goal
    · subst heq
      refine ⟨[start], ?_⟩
      unfold IsPath
      refine ⟨by simp, by simp, by simp, ?_, by simp⟩
      intro r hr
      rw [List.mem_singleton] at hr
      subst hr
      exact hs
    · have hspec := stepToward_spec (g := goal) heq
      set q := stepToward start goal with hq
      have hbs := valid_bounds hs
      have hbg := valid_bounds hg
      have hs1 := hspec.1
      have hs2 := hspec.2.1
      have hs3 := hspec.2.2.1
      have hs4 := hspec.2.2.2
      have hqvalid : is_valid_position a q = true := by
        refine free_valid hfree ?_ ?_ ?_ ?_ <;> omega
      have hless : heuristic q goal < d := by omega
      obtain ⟨l, hl⟩ := ih (heuristic q goal) hless q goal rfl hqvalid hg
      unfold IsPath at hl
      obtain ⟨hne, hhead, hlast, hvalid, hchain⟩ := hl
      obtain ⟨w, t, rfl⟩ : ∃ w t, l = w :: t := by
        cases l with
        | nil => exact absurd rfl hne
        | cons w t => exact ⟨w, t, rfl⟩
      have hw : w = q := by
        simp only [List.head?_cons] at hhead
        exact Option.some.inj hhead
      refine ⟨start :: w :: t, ?_⟩
      unfold IsPath
      refine ⟨by simp, by simp, ?_, ?_, ?_⟩
      · rw [List.getLast?_cons_cons]
        exact hlast
      · intro r hr
        rcases List.mem_cons.mp hr with rfl | hr
        · exact hs
        · exact hvalid r hr
      · refine List.chain'_cons.mpr ⟨?_, hchain⟩
        rw [hw]
        exact hs1

theorem IsPath.snoc {a : Grid} {start p q : Pos} {l : List Pos}
    (hl : IsPath a start p l) (hq : is_valid_position a q = true)
    (hstep : heuristic p q = 1) : IsPath a start q (l ++ [q]) := by
  obtain ⟨hne, hhead, hlast, hvalid, hchain⟩ := hl
  refine ⟨by simp, ?_, by simp, ?_, ?_⟩
  · rcases l with _ | ⟨x, t⟩
    · exact absurd rfl hne
    · simpa using hhead
  · intro r hr
    rcases List.mem_append.mp hr with hr | hr
    · exact hvalid r hr
    · rw [List.mem_singleton] at hr
      subst hr
      exact hq
  · rw [List.chain'_append]
    refine ⟨hchain, by simp, ?_⟩
    intro x hx y hy
    simp only [List.head?_cons, Option.mem_def, Option.some.injEq] at hy
    subst hy
    rw [Option.mem_def, hlast] at hx
    have hpx : p = x := by injection hx
    rw [hpx] at hstep
    exact hstep

/-- The initial search state built at lines 39-42 of astar.py. -/
def initState (start goal : Pos) : SearchState :=
  { open_set := [start]
    came_from := []
    g_score := [(start, 0)]
    f_score := [(start, heuristic start goal)] }

/-- The search-loop invariant of `find_path`, shorn of the relaxedness clause
(which is momentarily broken while a node is being expanded). -/
structure InvC (a : Grid) (start goal : Pos) (s : SearchState) : Prop where
  start_valid : is_valid_position a start = true
  goal_valid : is_valid_position a goal = true
  g_start : alookup s.g_score start = some 0
  g_valid : ∀ p n, alookup s.g_score p = some n → is_valid_position a p = true
  g_cf : ∀ p, p ≠ start → (alookup s.g_score p).isSome → (alookup s.came_from p).isSome
  cf_g : ∀ p q, alookup s.came_from p = some q →
    heuristic q p = 1 ∧
    ∃ n m, alookup s.g_score p = some n ∧ alookup s.g_score q = some m ∧ m + 1 ≤ n
  cf_start : alookup s.came_from start = none
  open_g : ∀ p ∈ s.open_set, (alookup s.g_score p).isSome
  f_g : ∀ p n, alookup s.g_score p = some n →
    alookup s.f_score p = some (n + heuristic p goal)
  g_path : ∀ p n, alookup s.g_score p = some n →
    ∃ l, IsPath a start p l ∧ l.length = n + 1
  goal_open : (alookup s.g_score goal).isSome → goal ∈ s.open_set

/-- The full search-loop invariant: the core plus relaxedness of closed nodes. -/
structure Inv (a : Grid) (start goal : Pos) (s : SearchState) : Prop where
  core : InvC a start goal s
  closed_relaxed : ∀ p n, alookup s.g_score p = some n → p ∉ s.open_set →
    ∀ nb ∈ get_neighbors a p, ∃ m, alookup s.g_score nb = some m ∧ m ≤ n + 1

theorem inv_init (a : Grid) (start goal : Pos)
    (hs : is_valid_position a start = true) (hg : is_valid_position a goal = true) :
    Inv a start goal (initState start goal) := by
  have hlook : ∀ p, alookup (initState start goal).g_score p =
      if p = start then some 0 else none := by
    intro p
    by_cases h : p = start <;> simp [initState, alookup, h]
  refine ⟨⟨hs, hg, by simp [initState, alookup], ?_, ?_, ?_, by simp [initState, alookup],
    ?_, ?_, ?_, ?_⟩, ?_⟩
  · intro p n hp
    rw [hlook] at hp
    by_cases h : p = start
    · subst h; exact hs
    · simp [h] at hp
  · intro p hp hsome
    rw [hlook] at hsome
    by_cases h : p = start
    · exact absurd h hp
    · simp [h] at hsome
  · intro p q hpq
    simp [initState, alookup] at hpq
  · intro p hp
    simp only [initState, List.mem_singleton] at hp
    subst hp
    simp [alookup]
  · intro p n hp
    rw [hlook] at hp
    by_cases h : p = start
    · subst h
      have hn : n = 0 := by simp at hp; omega
      subst hn
      simp [initState, alookup]
    · simp [h] at hp
  · intro p n hp
    rw [hlook] at hp
    by_cases h : p = start
    · subst h
      have hn : n = 0 := by simp at hp; omega
      subst hn
      refine ⟨[p], ⟨by simp, by simp, by simp, ?_, by simp⟩, by simp⟩
      intro r hr
      rw [List.mem_singleton] at hr
      subst hr
      exact hs
    · simp [h] at hp
  · intro hsome
    rw [hlook] at hsome
    by_cases h : goal = start
    · subst h
      simp [initState]
    · simp [h] at hsome
  · intro p n hp hopen
    rw [hlook] at hp
    by_cases h : p = start
    · subst h
      exact absurd (by simp [initState]) hopen
    · simp [h] at hp

/-- The state written by the update branch of the relaxation (lines 60-64). -/
def updState (goal current nb : Pos) (t : ℕ) (s : SearchState) : SearchState :=
  { open_set := if nb ∈ s.open_set then s.open_set else s.open_set ++ [nb]
    came_from := aset s.came_from nb current
    g_score := aset s.g_score nb t
    f_score := aset s.f_score nb (t + heuristic nb goal) }

/-- `relaxOne` either leaves the state alone or writes `updState` with the
tentative score, and updates only happen on a fresh or strictly improved key. -/
theorem relaxOne_split (a : Grid) (goal current : Pos) (s : SearchState) (nb : Pos) :
    (relaxOne a goal current s nb = s ∧
      (∃ gn, alookup s.g_score nb = some gn ∧ gn ≤ (alookup s.g_score current).getD 0 + 1)) ∨
    (relaxOne a goal current s nb = updState goal current nb ((alookup s.g_score current).getD 0 + 1) s ∧
      (alookup s.g_score nb = none ∨
        ∃ gn, alookup s.g_score nb = some gn ∧ (alookup s.g_score current).getD 0 + 1 < gn)) := by
  rcases hg : alookup s.g_score nb with _ | gn
  · right
    constructor
    · simp only [relaxOne, hg]
      rfl
    · exact Or.inl rfl
  · by_cases hlt : (alookup s.g_score current).getD 0 + 1 < gn
    · right
      constructor
      · simp only [relaxOne, hg, if_pos hlt]
        rfl
      · exact Or.inr ⟨gn, rfl, hlt⟩
    · left
      constructor
      · simp only [relaxOne, hg, if_neg hlt]
      · exact ⟨gn, rfl, by omega⟩

theorem updState_g_self (goal current nb : Pos) (t : ℕ) (s : SearchState) :
    alookup (updState goal current nb t s).g_score nb = some t :=
  alookup_aset_self _ _ _

theorem updState_g_other (goal current nb : Pos) (t : ℕ) (s : SearchState)
    {p : Pos} (h : p ≠ nb) :
    alookup (updState goal current nb t s).g_score p = alookup s.g_score p :=
  alookup_aset_ne _ _ _ _ h

theorem updState_open_mem (goal current nb : Pos) (t : ℕ) (s : SearchState) (p : Pos) :
    p ∈ (updState goal current nb t s).open_set ↔ (p ∈ s.open_set ∨ p = nb) := by
  simp only [updState]
  by_cases h : nb ∈ s.open_set
  · simp only [if_pos h]
    constructor
    · exact fun hp => Or.inl hp
    · rintro (hp | rfl)
      · exact hp
      · exact h
  · simp only [if_neg h, List.mem_append, List.mem_singleton]

/-- Monotonicity effects of one relaxation: recorded scores never worsen, the
open set never shrinks, and a node whose score changed is in the open set. -/
theorem relax_effects (a : Grid) (goal current : Pos) (s : SearchState) (nb : Pos) :
    (∀ p n, alookup s.g_score p = some n →
      ∃ m, alookup (relaxOne a goal current s nb).g_score p = some m ∧ m ≤ n) ∧
    (∀ p, p ∈ s.open_set → p ∈ (relaxOne a goal current s nb).open_set) ∧
    (∀ p, alookup (relaxOne a goal current s nb).g_score p ≠ alookup s.g_score p →
      p ∈ (relaxOne a goal current s nb).open_set) := by
  rcases relaxOne_split a goal current s nb with ⟨heq, _⟩ | ⟨heq, hfresh⟩
  · rw [heq]
    exact ⟨fun p n hp => ⟨n, hp, le_refl n⟩, fun p hp => hp, fun p hne => absurd rfl hne⟩
  · rw [heq]
    refine ⟨?_, ?_, ?_⟩
    · intro p n hp
      by_cases hpn : p = nb
      · subst hpn
        rcases hfresh with hnone | ⟨gn, hgn, hlt⟩
        · rw [hp] at hnone
          exact absurd hnone (by simp)
        · rw [hp] at hgn
          obtain rfl : n = gn := by injection hgn
          exact ⟨_, updState_g_self _ _ _ _ _, by omega⟩
      · exact ⟨n, by rw [updState_g_other _ _ _ _ _ hpn]; exact hp, le_refl n⟩
    · intro p hp
      rw [updState_open_mem]
      exact Or.inl hp
    · intro p hne
      by_cases hpn : p = nb
      · subst hpn
        rw [updState_open_mem]
        exact Or.inr rfl
      · rw [updState_g_other _ _ _ _ _ hpn] at hne
        exact absurd rfl hne

/-- Monotonicity effects of the whole expansion fold. -/
theorem fold_effects (a : Grid) (goal current : Pos) :
    ∀ (nbs : List Pos) (s : SearchState),
    (∀ p n, alookup s.g_score p = some n →
      ∃ m, alookup (nbs.foldl (relaxOne a goal current) s).g_score p = some m ∧ m ≤ n) ∧
    (∀ p, p ∈ s.open_set → p ∈ (nbs.foldl (relaxOne a goal current) s).open_set) ∧
    (∀ p, alookup (nbs.foldl (relaxOne a goal current) s).g_score p ≠ alookup s.g_score p →
      p ∈ (nbs.foldl (relaxOne a goal current) s).open_set) := by
  intro nbs
  induction nbs with
  | nil => exact fun s => ⟨fun p n hp => ⟨n, hp, le_refl n⟩, fun p hp => hp,
      fun p hne => absurd rfl hne⟩
  | cons nb t ih =>
    intro s
    obtain ⟨h1, h2, h3⟩ := relax_effects a goal current s nb
    obtain ⟨g1, g2, g3⟩ := ih (relaxOne a goal current s nb)
    simp only [List.foldl_cons]
    refine ⟨?_, ?_, ?_⟩
    · intro p n hp
      obtain ⟨m, hm, hmn⟩ := h1 p n hp
      obtain ⟨m', hm', hmm⟩ := g1 p m hm
      exact ⟨m', hm', le_trans hmm hmn⟩
    · intro p hp
      exact g2 p (h2 p hp)
    · intro p hne
      by_cases hmid : alookup (t.foldl (relaxOne a goal current) (relaxOne a goal current s nb)).g_score p =
          alookup (relaxOne a goal current s nb).g_score p
      · rw [hmid] at hne
        exact g2 p (h3 p hne)
      · exact g3 p hmid

theorem relax_g_current (a : Grid) (goal current : Pos) (s : SearchState) {nb : Pos}
    (h : nb ≠ current) :
    alookup (relaxOne a goal current s nb).g_score current = alookup s.g_score current := by
  rcases relaxOne_split a goal current s nb with ⟨heq, _⟩ | ⟨heq, _⟩
  · rw [heq]
  · rw [heq, updState_g_other _ _ _ _ _ (Ne.symm h)]

theorem fold_g_current (a : Grid) (goal current : Pos) :
    ∀ (nbs : List Pos) (s : SearchState), (∀ nb ∈ nbs, nb ≠ current) →
    alookup ((nbs.foldl (relaxOne a goal current) s)).g_score current =
      alookup s.g_score current := by
  intro nbs
  induction nbs with
  | nil => exact fun s _ => rfl
  | cons nb t ih =>
    intro s hne
    simp only [List.foldl_cons]
    rw [ih _ (fun q hq => hne q (by simp [hq])), relax_g_current a goal current s (hne nb (by simp))]

/-- After relaxing `nb`, its recorded score is at most `g(current) + 1`. -/
theorem relax_post (a : Grid) (goal current : Pos) (s : SearchState) (nb : Pos) {gc : ℕ}
    (hcur : alookup s.g_score current = some gc) :
    ∃ m, alookup (relaxOne a goal current s nb).g_score nb = some m ∧ m ≤ gc + 1 := by
  rcases relaxOne_split a goal current s nb with ⟨heq, gn, hgn, hle⟩ | ⟨heq, _⟩
  · rw [heq]
    rw [hcur] at hle
    exact ⟨gn, hgn, by simpa using hle⟩
  · rw [heq]
    refine ⟨_, updState_g_self _ _ _ _ _, ?_⟩
    rw [hcur]
    simp

/-- After the whole expansion fold, every neighbor is relaxed. -/
theorem fold_post (a : Grid) (goal current : Pos) {gc : ℕ} :
    ∀ (nbs : List Pos) (s : SearchState), alookup s.g_score current = some gc →
    (∀ nb ∈ nbs, nb ≠ current) →
    ∀ nb ∈ nbs, ∃ m, alookup (nbs.foldl (relaxOne a goal current) s).g_score nb = some m ∧
      m ≤ gc + 1 := by
  intro nbs
  induction nbs with
  | nil => intro s _ _ nb hnb; simp at hnb
  | cons x t ih =>
    intro s hcur hne nb hnb
    simp only [List.foldl_cons]
    rcases List.mem_cons.mp hnb with rfl | hnb
    · obtain ⟨m, hm, hmle⟩ := relax_post a goal current s nb hcur
      obtain ⟨m', hm', hmm⟩ := (fold_effects a goal current t (relaxOne a goal current s nb)).1 nb m hm
      exact ⟨m', hm', le_trans hmm hmle⟩
    · have hcur' : alookup (relaxOne a goal current s x).g_score current = some gc := by
        rw [relax_g_current a goal current s (hne x (by simp))]
        exact hcur
      exact ih (relaxOne a goal current s x) hcur' (fun q hq => hne q (by simp [hq])) nb hnb

theorem updState_cf_self (goal current nb : Pos) (t : ℕ) (s : SearchState) :
    alookup (updState goal current nb t s).came_from nb = some current :=
  alookup_aset_self _ _ _

theorem updState_cf_other (goal current nb : Pos) (t : ℕ) (s : SearchState)
    {p : Pos} (h : p ≠ nb) :
    alookup (updState goal current nb t s).came_from p = alookup s.came_from p :=
  alookup_aset_ne _ _ _ _ h

theorem updState_f_self (goal current nb : Pos) (t : ℕ) (s : SearchState) :
    alookup (updState goal current nb t s).f_score nb = some (t + heuristic nb goal) :=
  alookup_aset_self _ _ _

theorem updState_f_other (goal current nb : Pos) (t : ℕ) (s : SearchState)
    {p : Pos} (h : p ≠ nb) :
    alookup (updState goal current nb t s).f_score p = alookup s.f_score p :=
  alookup_aset_ne _ _ _ _ h

theorem neighbor_ne {a : Grid} {p q : Pos} (h : q ∈ get_neighbors a p) : q ≠ p := by
  obtain ⟨_, hstep⟩ := mem_get_neighbors.mp h
  intro heq
  subst heq
  rw [heuristic_self] at hstep
  omega

/-- One relaxation of a neighbor of `current` preserves the core invariant. -/
theorem relax_core {a : Grid} {start goal current : Pos} {s : SearchState} {gc : ℕ}
    (inv : InvC a start goal s) (hcur : alookup s.g_score current = some gc)
    {nb : Pos} (hnb : nb ∈ get_neighbors a current) :
    InvC a start goal (relaxOne a goal current s nb) := by
  obtain ⟨hnbval, hnbstep⟩ := mem_get_neighbors.mp hnb
  have hnbcur : nb ≠ current := neighbor_ne hnb
  rcases relaxOne_split a goal current s nb with ⟨heq, _⟩ | ⟨heq, hfresh⟩
  · rw [heq]
    exact inv
  · rw [heq]
    have htv : (alookup s.g_score current).getD 0 + 1 = gc + 1 := by
      rw [hcur]
      rfl
    rw [htv]
    have hnbstart : nb ≠ start := by
      intro h
      subst h
      rcases hfresh with hnone | ⟨gn, hgn, hlt⟩
      · rw [inv.g_start] at hnone
        exact absurd hnone (by simp)
      · rw [inv.g_start] at hgn
        have hgn0 : (0 : ℕ) = gn := by injection hgn
        rw [hcur] at hlt
        simp only [Option.getD_some] at hlt
        omega
    refine ⟨inv.start_valid, inv.goal_valid, ?_, ?_, ?_, ?_, ?_, ?_, ?_, ?_, ?_⟩
    · rw [updState_g_other _ _ _ _ _ (Ne.symm hnbstart)]
      exact inv.g_start
    · intro p n hp
      by_cases hpn : p = nb
      · subst hpn
        exact hnbval
      · rw [updState_g_other _ _ _ _ _ hpn] at hp
        exact inv.g_valid p n hp
    · intro p hp hsome
      by_cases hpn : p = nb
      · subst hpn
        rw [updState_cf_self]
        simp
      · rw [updState_g_other _ _ _ _ _ hpn] at hsome
        rw [updState_cf_other _ _ _ _ _ hpn]
        exact inv.g_cf p hp hsome
    · intro p q hpq
      by_cases hpn : p = nb
      · subst hpn
        rw [updState_cf_self] at hpq
        have hq : current = q := by injection hpq
        subst hq
        refine ⟨hnbstep, gc + 1, gc, updState_g_self _ _ _ _ _, ?_, le_refl _⟩
        rw [updState_g_other _ _ _ _ _ (Ne.symm hnbcur)]
        exact hcur
      · rw [updState_cf_other _ _ _ _ _ hpn] at hpq
        obtain ⟨hstep, n, m, hgp, hgq, hmn⟩ := inv.cf_g p q hpq
        refine ⟨hstep, n, ?_⟩
        have hgp' : alookup (updState goal current nb (gc + 1) s).g_score p = some n := by
          rw [updState_g_other _ _ _ _ _ hpn]
          exact hgp
        by_cases hqn : q = nb
        · subst hqn
          rcases hfresh with hnone | ⟨gn, hgn, hlt⟩
          · rw [hgq] at hnone
            exact absurd hnone (by simp)
          · rw [hgq] at hgn
            have hmgn : m = gn := by injection hgn
            rw [hcur] at hlt
            simp only [Option.getD_some] at hlt
            exact ⟨gc + 1, hgp', updState_g_self _ _ _ _ _, by omega⟩
        · refine ⟨m, hgp', ?_, hmn⟩
          rw [updState_g_other _ _ _ _ _ hqn]
          exact hgq
    · rw [updState_cf_other _ _ _ _ _ (Ne.symm hnbstart)]
      exact inv.cf_start
    · intro p hp
      rw [updState_open_mem] at hp
      rcases hp with hp | rfl
      · by_cases hpn : p = nb
        · subst hpn
          simp [updState_g_self]
        · rw [updState_g_other _ _ _ _ _ hpn]
          exact inv.open_g p hp
      · simp [updState_g_self]
    · intro p n hp
      by_cases hpn : p = nb
      · subst hpn
        rw [updState_g_self] at hp
        have hn : gc + 1 = n := by injection hp
        rw [updState_f_self, hn]
      · rw [updState_g_other _ _ _ _ _ hpn] at hp
        rw [updState_f_other _ _ _ _ _ hpn]
        exact inv.f_g p n hp
    · intro p n hp
      by_cases hpn : p = nb
      · subst hpn
        rw [updState_g_self] at hp
        have hn : gc + 1 = n := by injection hp
        obtain ⟨l, hl, hlen⟩ := inv.g_path current gc hcur
        refine ⟨l ++ [p], IsPath.snoc hl hnbval hnbstep, ?_⟩
        simp only [List.length_append, List.length_singleton, hlen]
        omega
      · rw [updState_g_other _ _ _ _ _ hpn] at hp
        exact inv.g_path p n hp
    · intro hsome
      rw [updState_open_mem]
      by_cases hgn : goal = nb
      · exact Or.inr hgn
      · rw [updState_g_other _ _ _ _ _ hgn] at hsome
        exact Or.inl (inv.goal_open hsome)

/-- The whole expansion fold preserves the core invariant. -/
theorem fold_core {a : Grid} {start goal current : Pos} {gc : ℕ} :
    ∀ (nbs : List Pos) (s : SearchState), InvC a start goal s →
    alookup s.g_score current = some gc →
    (∀ nb ∈ nbs, nb ∈ get_neighbors a current) →
    InvC a start goal (nbs.foldl (relaxOne a goal current) s) := by
  intro nbs
  induction nbs with
  | nil => exact fun s inv _ _ => inv
  | cons nb t ih =>
    intro s inv hcur hsub
    have hnb : nb ∈ get_neighbors a current := hsub nb (by simp)
    simp only [List.foldl_cons]
    refine ih (relaxOne a goal current s nb) (relax_core inv hcur hnb) ?_
      (fun q hq => hsub q (by simp [hq]))
    rw [relax_g_current a goal current s (neighbor_ne hnb)]
    exact hcur

theorem inv_erase {a : Grid} {start goal : Pos} {s : SearchState}
    (inv : Inv a start goal s) {current : Pos} (hne : current ≠ goal) :
    InvC a start goal { s with open_set := s.open_set.erase current } := by
  obtain ⟨core, _⟩ := inv
  refine ⟨core.start_valid, core.goal_valid, core.g_start, core.g_valid, core.g_cf,
    core.cf_g, core.cf_start, ?_, core.f_g, core.g_path, ?_⟩
  · intro p hp
    exact core.open_g p (List.mem_of_mem_erase hp)
  · intro hsome
    exact (List.mem_erase_of_ne (Ne.symm hne)).mpr (core.goal_open hsome)

/-- One full loop iteration (select `current ≠ goal`, remove it, expand it)
preserves the search-loop invariant. -/
theorem inv_step {a : Grid} {start goal : Pos} {s : SearchState}
    (inv : Inv a start goal s) {current : Pos}
    (hc : current ∈ s.open_set) (hne : current ≠ goal) :
    Inv a start goal (expand a goal current { s with open_set := s.open_set.erase current }) := by
  obtain ⟨gc, hcur⟩ : ∃ gc, alookup s.g_score current = some gc :=
    Option.isSome_iff_exists.mp (inv.core.open_g current hc)
  have hcur₁ : alookup ({ s with open_set := s.open_set.erase current } : SearchState).g_score
      current = some gc := hcur
  have hcore₁ := inv_erase inv hne
  have hcore₂ := fold_core (get_neighbors a current)
    { s with open_set := s.open_set.erase current } hcore₁ hcur₁ (fun nb h => h)
  refine ⟨hcore₂, ?_⟩
  intro p n hp hnotopen nb hnb
  unfold expand at hp hnotopen
  have heff := fold_effects a goal current (get_neighbors a current)
    { s with open_set := s.open_set.erase current }
  have hgcur₂ : alookup ((get_neighbors a current).foldl (relaxOne a goal current)
      { s with open_set := s.open_set.erase current }).g_score current = some gc := by
    rw [fold_g_current a goal current _ _ (fun q hq => neighbor_ne hq)]
    exact hcur₁
  by_cases hpc : p = current
  · have hn : n = gc := by
      rw [hpc] at hp
      rw [hp] at hgcur₂
      injection hgcur₂
    subst hn
    rw [hpc] at hnb
    exact fold_post a goal current (get_neighbors a current)
      { s with open_set := s.open_set.erase current } hcur₁ (fun q hq => neighbor_ne hq) nb hnb
  · have hnop : p ∉ s.open_set := by
      intro hmem
      have hmem₁ : p ∈ ({ s with open_set := s.open_set.erase current } : SearchState).open_set :=
        (List.mem_erase_of_ne hpc).mpr hmem
      exact hnotopen (heff.2.1 p hmem₁)
    have hsame : alookup ((get_neighbors a current).foldl (relaxOne a goal current)
        { s with open_set := s.open_set.erase current }).g_score p =
        alookup ({ s with open_set := s.open_set.erase current } : SearchState).g_score p := by
      by_contra hdiff
      exact hnotopen (heff.2.2 p hdiff)
    have hp₁ : alookup s.g_score p = some n := by
      rw [← hp, hsame]
    obtain ⟨m, hm, hmn⟩ := inv.closed_relaxed p n hp₁ hnop nb hnb
    obtain ⟨m', hm', hmm⟩ := heff.1 nb m hm
    exact ⟨m', hm', le_trans hmm hmn⟩

/-- `AStar.find_path`: endpoint validity pre-check, then the search loop. -/
def find_path (a : Grid) (start goal : Pos) : Option (List Pos) :=
  if is_valid_position a start && is_valid_position a goal then
    search a start goal (initState start goal)
  else none

/-- Reconstruction along back-pointers: with enough fuel, `reconAux` returns
the cells from `p` back to `start`, a reversed valid path of at most
`g(p) + 1` cells. -/
theorem recon_spec {a : Grid} {start goal : Pos} {s : SearchState}
    (inv : InvC a start goal s) :
    ∀ (n : ℕ) (p : Pos), alookup s.g_score p = some n →
    ∀ fuel, n < fuel →
    (reconAux s.came_from start fuel p) ≠ [] ∧
    (reconAux s.came_from start fuel p).head? = some p ∧
    (reconAux s.came_from start fuel p).getLast? = some start ∧
    (∀ q ∈ reconAux s.came_from start fuel p, is_valid_position a q = true) ∧
    (reconAux s.came_from start fuel p).Chain' (fun u v => heuristic v u = 1) ∧
    (reconAux s.came_from start fuel p).length ≤ n + 1 := by
  intro n
  induction n using Nat.strong_induction_on with
  | _ n ih =>
    intro p hp fuel hfuel
    obtain ⟨fuel, rfl⟩ : ∃ f, fuel = f + 1 := ⟨fuel - 1, by omega⟩
    rcases hcf : alookup s.came_from p with _ | prev
    · have hps : p = start := by
        by_contra hne
        have hsome := inv.g_cf p hne (by rw [hp]; rfl)
        rw [hcf] at hsome
        simp at hsome
      subst hps
      simp only [reconAux, hcf]
      refine ⟨by simp, by simp, by simp, ?_, by simp, by simp⟩
      intro q hq
      rw [List.mem_singleton] at hq
      subst hq
      exact inv.start_valid
    · obtain ⟨hstep, n', m, hgp, hgm, hmn⟩ := inv.cf_g p prev hcf
      have hn' : n = n' := by
        rw [hp] at hgp
        injection hgp
      subst hn'
      have hmlt : m < n := by omega
      have hrec := ih m hmlt prev hgm fuel (by omega)
      obtain ⟨hne, hhead, hlast, hvalid, hchain, hlen⟩ := hrec
      obtain ⟨w, t, hwt⟩ : ∃ w t, reconAux s.came_from start fuel prev = w :: t := by
        rcases hl : reconAux s.came_from start fuel prev with _ | ⟨w, t⟩
        · exact absurd hl hne
        · exact ⟨w, t, rfl⟩
      have hw : w = prev := by
        rw [hwt] at hhead
        simp only [List.head?_cons] at hhead
        exact Option.some.inj hhead
      simp only [reconAux, hcf, hwt]
      refine ⟨by simp, by simp, ?_, ?_, ?_, ?_⟩
      · rw [List.getLast?_cons_cons]
        rw [hwt] at hlast
        exact hlast
      · intro q hq
        rcases List.mem_cons.mp hq with rfl | hq
        · exact inv.g_valid q n hp
        · rw [← hwt] at hq
          exact hvalid q hq
      · refine List.chain'_cons.mpr ⟨?_, ?_⟩
        · rw [hw]
          exact hstep
        · rw [← hwt]
          exact hchain
      · rw [hwt] at hlen
        simp only [List.length_cons] at hlen ⊢
        omega

/-- With an empty frontier the recorded cells are closed under valid steps,
so the whole of any valid path from `start` carries a score. -/
theorem path_dom {a : Grid} {start goal : Pos} {s : SearchState}
    (inv : Inv a start goal s) (hopen : s.open_set = []) :
    ∀ (l : List Pos), l.Chain' UnitStep → (∀ x ∈ l, is_valid_position a x = true) →
      ∀ p, l.head? = some p → (alookup s.g_score p).isSome →
      ∀ u, l.getLast? = some u → (alookup s.g_score u).isSome := by
  intro l
  induction l with
  | nil =>
    intro _ _ p hp
    simp at hp
  | cons x t ih =>
    intro hchain hvalid p hp hpg u hu
    simp only [List.head?_cons] at hp
    obtain rfl : x = p := Option.some.inj hp
    cases t with
    | nil =>
      simp only [List.getLast?_singleton] at hu
      obtain rfl : x = u := Option.some.inj hu
      exact hpg
    | cons w t' =>
      have hc := List.chain'_cons.mp hchain
      have hwnb : w ∈ get_neighbors a x :=
        mem_get_neighbors.mpr ⟨hvalid w (by simp), hc.1⟩
      obtain ⟨n, hn⟩ := Option.isSome_iff_exists.mp hpg
      have hclosed : x ∉ s.open_set := by
        rw [hopen]
        simp
      obtain ⟨m, hm, _⟩ := inv.closed_relaxed x n hn hclosed w hwnb
      refine ih hc.2 (fun y hy => hvalid y (by simp [hy])) w rfl (by rw [hm]; rfl) u ?_
      rw [List.getLast?_cons_cons] at hu
      exact hu

/-- If the frontier empties, no valid path joins `start` to `goal`. -/
theorem closed_dom {a : Grid} {start goal : Pos} {s : SearchState}
    (inv : Inv a start goal s) (hopen : s.open_set = [])
    (hreach : Reachable a start goal) : False := by
  obtain ⟨l, hl⟩ := hreach
  obtain ⟨hne, hhead, hlast, hvalid, hchain⟩ := hl
  have hstart : (alookup s.g_score start).isSome := by
    rw [inv.core.g_start]
    rfl
  have hgoal := path_dom inv hopen l hchain hvalid start hhead hstart goal hlast
  have hmem := inv.core.goal_open hgoal
  rw [hopen] at hmem
  simp at hmem

/-- On an obstacle-free grid, from any cell of a `start`-`goal` geodesic that
carries an optimal score, either the goal already has an optimal score or
some open node has f-value at most the optimal cost. -/
theorem opt_walk {a : Grid} {start goal : Pos} {s : SearchState}
    (hfree : FreeGrid a) (inv : Inv a start goal s) :
    ∀ (d : ℕ) (p : Pos), heuristic p goal = d →
      is_valid_position a p = true →
      heuristic start p + heuristic p goal = heuristic start goal →
      (∃ k, alookup s.g_score p = some k ∧ k ≤ heuristic start p) →
      (∃ n, alookup s.g_score goal = some n ∧ n ≤ heuristic start goal) ∨
      (∃ q ∈ s.open_set, fGet s q ≤ (heuristic start goal : ℕ∞)) := by
  intro d
  induction d using Nat.strong_induction_on with
  | _ d ih =>
    intro p hd hval hgeo hk
    obtain ⟨k, hk, hkle⟩ := hk
    by_cases hpg : p = goal
    · subst hpg
      left
      rw [heuristic_self] at hgeo
      exact ⟨k, hk, by omega⟩
    · by_cases hopen : p ∈ s.open_set
      · right
        refine ⟨p, hopen, ?_⟩
        have hf := inv.core.f_g p k hk
        simp only [fGet, hf]
        have harith : k + heuristic p goal ≤ heuristic start goal := by omega
        exact_mod_cast Nat.cast_le.mpr harith
      · have hq := stepToward_spec (g := goal) hpg
        have hq1 := hq.1
        have hq2 := hq.2.1
        have hq3 := hq.2.2.1
        have hq4 := hq.2.2.2
        have hbp := valid_bounds hval
        have hbg := valid_bounds inv.core.goal_valid
        have hqval : is_valid_position a (stepToward p goal) = true := by
          refine free_valid hfree ?_ ?_ ?_ ?_ <;> omega
        have hqnb : stepToward p goal ∈ get_neighbors a p :=
          mem_get_neighbors.mpr ⟨hqval, hq1⟩
        obtain ⟨m, hm, hmle⟩ := inv.closed_relaxed p k hk hopen _ hqnb
        have htr1 := heuristic_triangle start p (stepToward p goal)
        have htr2 := heuristic_triangle start (stepToward p goal) goal
        have hgeoq : heuristic start (stepToward p goal) +
            heuristic (stepToward p goal) goal = heuristic start goal := by omega
        have hmq : m ≤ heuristic start (stepToward p goal) := by omega
        exact ih (heuristic (stepToward p goal) goal) (by omega) _ rfl hqval hgeoq ⟨m, hm, hmq⟩

theorem search_eq_nil (a : Grid) (start goal : Pos) (s : SearchState)
    (h : s.open_set = []) : search a start goal s = none := by
  rw [search.eq_def]
  split
  · rfl
  · rename_i c rest heq
    rw [h] at heq
    cases heq

theorem search_eq_goal (a : Grid) (start goal : Pos) (s : SearchState)
    (c : Pos) (rest : List Pos) (h : s.open_set = c :: rest)
    (hg : minBy (fGet s) c rest = goal) :
    search a start goal s =
      some (reconAux s.came_from start ((alookup s.g_score goal).getD 0 + 1) goal).reverse := by
  rw [search.eq_def]
  split
  · rename_i heq
    rw [h] at heq
    cases heq
  · rename_i c' rest' heq
    rw [h] at heq
    injection heq with h1 h2
    subst h1
    subst h2
    simp only [hg, if_pos]

theorem search_eq_step (a : Grid) (start goal : Pos) (s : SearchState)
    (c : Pos) (rest : List Pos) (h : s.open_set = c :: rest)
    (hg : minBy (fGet s) c rest ≠ goal) :
    search a start goal s = search a start goal
      (expand a goal (minBy (fGet s) c rest)
        { s with open_set := s.open_set.erase (minBy (fGet s) c rest) }) := by
  rw [search.eq_def]
  split
  · rename_i heq
    rw [h] at heq
    cases heq
  · rename_i c' rest' heq
    rw [h] at heq
    injection heq with h1 h2
    subst h1
    subst h2
    simp only [if_neg hg]

/-- The full specification of the search loop from any invariant state:
`none` only without a path, and a returned path is valid; on an obstacle-free
grid a returned path has exactly `Manhattan(start, goal) + 1` cells. -/
theorem search_correct (a : Grid) (start goal : Pos) :
    ∀ (s : SearchState), Inv a start goal s →
    (search a start goal s = none → ¬ Reachable a start goal) ∧
    (∀ p, search a start goal s = some p →
      IsPath a start goal p ∧
      (FreeGrid a → p.length = heuristic start goal + 1)) := by
  intro s₀
  induction s₀ using search.induct a start goal with
  | case1 s hopen =>
    intro inv
    constructor
    · intro _ hreach
      exact closed_dom inv hopen hreach
    · intro p hp
      rw [search_eq_nil a start goal s hopen] at hp
      cases hp
  | case2 s c rest hopen cur hgoal =>
    intro inv
    have hgoal' : minBy (fGet s) c rest = goal := hgoal
    have hgoalmem : goal ∈ s.open_set := by
      rw [hopen, ← hgoal']
      rcases minBy_mem (fGet s) c rest with h | h
      · rw [h]
        exact List.mem_cons_self c rest
      · exact List.mem_cons_of_mem _ h
    obtain ⟨n, hg⟩ := Option.isSome_iff_exists.mp (inv.core.open_g goal hgoalmem)
    have hres := search_eq_goal a start goal s c rest hopen hgoal'
    rw [hg] at hres
    simp only [Option.getD_some] at hres
    have hspec := recon_spec inv.core n goal hg (n + 1) (by omega)
    obtain ⟨hne, hhead, hlast, hvalid, hchain, hlen⟩ := hspec
    constructor
    · intro hnone
      rw [hres] at hnone
      cases hnone
    · intro p hp
      rw [hres] at hp
      have hp' : (reconAux s.came_from start (n + 1) goal).reverse = p :=
        Option.some.inj hp
      subst hp'
      constructor
      · refine ⟨by simpa using hne, ?_, ?_, ?_, ?_⟩
        · rw [List.head?_reverse]
          exact hlast
        · rw [List.getLast?_reverse]
          exact hhead
        · intro q hq
          exact hvalid q (List.mem_reverse.mp hq)
        · rw [List.chain'_reverse]
          exact hchain
      · intro hfree
        have hnD : n = heuristic start goal := by
          obtain ⟨l', hl', hlen'⟩ := inv.core.g_path goal n hg
          obtain ⟨hne', hh', hla', hv', hc'⟩ := hl'
          have hlow := chain_manhattan l' start goal hh' hla' hc'
          have hwalk := opt_walk hfree inv (heuristic start goal) start rfl
            inv.core.start_valid (by rw [heuristic_self]; omega)
            ⟨0, inv.core.g_start, by simp⟩
          rcases hwalk with ⟨n', hgn', hn'le⟩ | ⟨q, hqopen, hfq⟩
          · have hnn : n = n' := by
              rw [hg] at hgn'
              injection hgn'
            omega
          · have hmin := minBy_le (fGet s) c rest
            have hq' : fGet s (minBy (fGet s) c rest) ≤ fGet s q := by
              rw [hopen] at hqopen
              rcases List.mem_cons.mp hqopen with rfl | hq2
              · exact hmin.1
              · exact hmin.2 q hq2
            rw [hgoal'] at hq'
            have hfgoal : fGet s goal = ((n : ℕ) : ℕ∞) := by
              have hf := inv.core.f_g goal n hg
              rw [heuristic_self] at hf
              have hf' : alookup s.f_score goal = some n := by simpa using hf
              simp only [fGet, hf']
            have hle2 : ((n : ℕ) : ℕ∞) ≤ ((heuristic start goal : ℕ) : ℕ∞) := by
              rw [← hfgoal]
              exact le_trans hq' hfq
            have hupper : n ≤ heuristic start goal := by exact_mod_cast hle2
            omega
        have hlow2 := chain_manhattan (reconAux s.came_from start (n + 1) goal).reverse
          start goal (by rw [List.head?_reverse]; exact hlast)
          (by rw [List.getLast?_reverse]; exact hhead)
          (by rw [List.chain'_reverse]; exact hchain)
        rw [List.length_reverse] at hlow2 ⊢
        omega
  | case3 s c rest hopen cur hne ih =>
    intro inv
    have hne' : minBy (fGet s) c rest ≠ goal := hne
    have hcurmem : minBy (fGet s) c rest ∈ s.open_set := by
      rw [hopen]
      rcases minBy_mem (fGet s) c rest with h | h
      · rw [h]
        exact List.mem_cons_self c rest
      · exact List.mem_cons_of_mem _ h
    have inv' := inv_step inv hcurmem hne'
    have hres := search_eq_step a start goal s c rest hopen hne'
    obtain ⟨ihnone, ihsome⟩ := ih inv'
    constructor
    · intro hnone
      rw [hres] at hnone
      exact ihnone hnone
    · intro p hp
      rw [hres] at hp
      exact ihsome p hp

theorem find_path_invalid {a : Grid} {start goal : Pos}
    (h : ¬(is_valid_position a start = true ∧ is_valid_position a goal = true)) :
    find_path a start goal = none := by
  have hcond : ¬((is_valid_position a start && is_valid_position a goal) = true) := by
    rw [Bool.and_eq_true]
    exact h
  simp only [find_path]
  rw [if_neg hcond]

theorem find_path_valid {a : Grid} {start goal : Pos}
    (hs : is_valid_position a start = true) (hg : is_valid_position a goal = true) :
    find_path a start goal = search a start goal (initState start goal) := by
  simp only [find_path]
  rw [if_pos (by rw [Bool.and_eq_true]; exact ⟨hs, hg⟩)]

/-- C1: on an obstacle-free rectangular grid with valid start and goal,
`AStar.find_path` returns a path whose cell count equals the Manhattan
distance between start and goal plus 1 (a shortest 4-connected path). -/
theorem astar_optimal_free_grid (w h : ℤ) (start goal : Pos)
    (hs : is_valid_position (make w h []) start = true)
    (hg : is_valid_position (make w h []) goal = true) :
    ∃ p, find_path (make w h []) start goal = some p ∧
      p.length = heuristic start goal + 1 := by
  have hfree : FreeGrid (make w h []) := by
    intro y x
    simp [make]
  have hreach := free_reachable hfree (heuristic start goal) start goal rfl hs hg
  have hinv := inv_init (make w h []) start goal hs hg
  have hcorrect := search_correct (make w h []) start goal (initState start goal) hinv
  rcases hres : search (make w h []) start goal (initState start goal) with _ | p
  · exact absurd hreach (hcorrect.1 hres)
  · obtain ⟨hpath, hlen⟩ := hcorrect.2 p hres
    refine ⟨p, ?_, hlen hfree⟩
    rw [find_path_valid hs hg]
    exact hres

/-- Witness for C1 at a concrete obstacle-free 3-by-2 grid. -/
theorem astar_optimal_free_grid_witness :
    (is_valid_position (make 3 2 []) ((0 : ℤ), (0 : ℤ)) = true) ∧
    (is_valid_position (make 3 2 []) ((2 : ℤ), (1 : ℤ)) = true) ∧
    ∃ p, find_path (make 3 2 []) (0, 0) (2, 1) = some p ∧
      p.length = heuristic ((0 : ℤ), (0 : ℤ)) ((2 : ℤ), (1 : ℤ)) + 1 :=
  ⟨by decide, by decide, astar_optimal_free_grid 3 2 (0, 0) (2, 1) (by decide) (by decide)⟩

/-- C6: every path returned by `AStar.find_path` is a valid path: first cell
start, last cell goal, every cell in bounds and unoccupied, and consecutive
cells one unit apart in exactly one axis; when start = goal the result is the
one-element path [start]. -/
theorem astar_path_valid (a : Grid) (start goal : Pos) (p : List Pos) :
    (find_path a start goal = some p → IsPath a start goal p) ∧
    (start = goal → is_valid_position a start = true →
      find_path a start goal = some [start]) := by
  constructor
  · intro hp
    have hvv : is_valid_position a start = true ∧ is_valid_position a goal = true := by
      by_contra hcon
      rw [find_path_invalid hcon] at hp
      cases hp
    have hinv := inv_init a start goal hvv.1 hvv.2
    have hcorrect := search_correct a start goal (initState start goal) hinv
    rw [find_path_valid hvv.1 hvv.2] at hp
    exact (hcorrect.2 p hp).1
  · intro heq hval
    subst heq
    rw [find_path_valid hval hval]
    rw [search_eq_goal a start start (initState start start) start [] rfl rfl]
    simp [initState, alookup, reconAux]

/-- Witness for C6 on the 1-by-1 empty grid with start = goal. -/
theorem astar_path_valid_witness :
    find_path (make 1 1 []) (0, 0) (0, 0) = some [((0 : ℤ), (0 : ℤ))] ∧
    IsPath (make 1 1 []) (0, 0) (0, 0) [((0 : ℤ), (0 : ℤ))] := by
  have h := astar_path_valid (make 1 1 []) (0, 0) (0, 0) [((0 : ℤ), (0 : ℤ))]
  have h2 := h.2 rfl (by decide)
  exact ⟨h2, h.1 h2⟩

/-- C4: `AStar.find_path` returns `none` exactly when start or goal fails
`is_valid_position` or no 4-connected obstacle-free path joins them
(otherwise it returns a path); with an invalid endpoint the `none` comes
straight from the pre-check, before any expansion. -/
theorem astar_none_iff (a : Grid) (start goal : Pos) :
    (find_path a start goal = none ↔
      (is_valid_position a start = false ∨ is_valid_position a goal = false ∨
        ¬ Reachable a start goal)) ∧
    ((is_valid_position a start = false ∨ is_valid_position a goal = false) →
      find_path a start goal = none) := by
  have hfalse : ∀ {b : Bool}, b = false → ¬(b = true) := by
    intro b hb hb'
    rw [hb] at hb'
    cases hb'
  constructor
  · constructor
    · intro hnone
      rcases hsv : is_valid_position a start with _ | _
      · exact Or.inl rfl
      · rcases hgv : is_valid_position a goal with _ | _
        · exact Or.inr (Or.inl rfl)
        · refine Or.inr (Or.inr ?_)
          have hinv := inv_init a start goal hsv hgv
          rw [find_path_valid hsv hgv] at hnone
          exact (search_correct a start goal _ hinv).1 hnone
    · intro hcase
      rcases hcase with hs | hg | hreach
      · exact find_path_invalid (fun hvv => hfalse hs hvv.1)
      · exact find_path_invalid (fun hvv => hfalse hg hvv.2)
      · rcases hsv : is_valid_position a start with _ | _
        · exact find_path_invalid (fun hvv => hfalse hsv hvv.1)
        · rcases hgv : is_valid_position a goal with _ | _
          · exact find_path_invalid (fun hvv => hfalse hgv hvv.2)
          · rw [find_path_valid hsv hgv]
            rcases hres : search a start goal (initState start goal) with _ | p
            · rfl
            · have hinv := inv_init a start goal hsv hgv
              have hvalid := (search_correct a start goal _ hinv).2 p hres
              exact absurd ⟨p, hvalid.1⟩ hreach
  · intro hcase
    rcases hcase with hs | hg
    · exact find_path_invalid (fun hvv => hfalse hs hvv.1)
    · exact find_path_invalid (fun hvv => hfalse hg hvv.2)

/-- Witness for C4: an occupied start cell makes `find_path` return `none`. -/
theorem astar_none_iff_witness :
    (is_valid_position (make 1 1 [((0 : ℤ), (0 : ℤ))]) (0, 0) = false ∨
      is_valid_position (make 1 1 [((0 : ℤ), (0 : ℤ))]) (0, 0) = false) ∧
    find_path (make 1 1 [((0 : ℤ), (0 : ℤ))]) (0, 0) (0, 0) = none :=
  ⟨Or.inl (by decide),
    (astar_none_iff (make 1 1 [((0 : ℤ), (0 : ℤ))]) (0, 0) (0, 0)).2 (Or.inl (by decide))⟩

end AStar

/-!
Embedding of src/planners/dwa.py over the real numbers.  Python floats are
modelled as reals, `float("inf")` as `⊤ : WithTop ℝ`, and the
`ZeroDivisionError` that `1.0 / min_dist` raises when the minimum obstacle
distance is exactly 0 as `none` in an `Option` result, propagated through
`calc_final_input` and `find_path` exactly as the exception would propagate.
The planner instance state is reduced to its static obstacle set; the map
dimensions of `DWAPlanner.__init__` are never read by the planning loop.

One quantity is modelled bit-exactly rather than as a real: the `time`
variable of the `calc_trajectory` loop.  Its value is observable (it decides
how many points the loop appends), and in the source it accumulates IEEE-754
doubles: `time += self.dt` rounds after every addition, so after 30 additions
of the double nearest 0.1 the clock reads `3.0000000000000013 > 3.0` and the
inclusive `while time <= self.predict_time` bound admits exactly 30
iterations, not the 31 that exact-real accumulation would give.  Every value
this clock takes is an integer multiple of `2⁻⁵⁶`, so the clock is embedded
as that integer (`flScaled` is round-to-nearest-even onto the double grid of
the value's binade, on the scaled representation).
-/

namespace DWA

/-- IEEE-754 double rounding (round to nearest, ties to even) on clock values
scaled by `2⁵⁶`: `n` stands for the real number `n / 2⁵⁶`.  Values below
`2⁻⁴` sit in binades whose spacing is finer than `2⁻⁵⁶`, so every grid point
is exactly representable; above, the spacing is `2 ^ (e - 52)` for binade
exponent `e` (found by the bounded scan, which covers values up to `2⁸` —
far beyond the `[0, 3.2]` range the trajectory clock visits). -/
def flScaled (n : ℕ) : ℕ :=
  if n < 2 ^ 52 then n
  else
    let g := (List.range 12).foldl (fun acc i => if 2 ^ (52 + i) ≤ n then 2 ^ i else acc) 1
    let q := n / g
    let r := n % g
    if 2 * r < g then q * g
    else if g < 2 * r then (q + 1) * g
    else if q % 2 = 0 then q * g else (q + 1) * g

/-- The IEEE-754 double the literal `0.1` parses to, scaled by `2⁵⁶`:
`0.1₆₄ = 3602879701896397 / 2⁵⁵`, the nearest 53-bit float to `1/10`. -/
def dtScaled : ℕ := 7205759403792794

/-- `self.predict_time` scaled by `2⁵⁶`; `3.0` is exactly representable. -/
def predictScaled : ℕ := 3 * 2 ^ 56

/-- The number of iterations the `while time <= self.predict_time` loop still
performs from clock value `t` within `fuel` checks: the loop body runs while
the test passes, and the clock advances by one rounded double addition. -/
def stepCount (t : ℕ) : ℕ → ℕ
  | 0 => 0
  | fuel + 1 => if t ≤ predictScaled then stepCount (flScaled (t + dtScaled)) fuel + 1 else 0

/-- The clock value after `k` executions of `time += self.dt`. -/
def timeSeq : ℕ → ℕ
  | 0 => 0
  | k + 1 => flScaled (timeSeq k + dtScaled)

open scoped Classical

noncomputable section

/-- `self.max_speed`. -/
def max_speed : ℝ := 1.0

/-- `self.min_speed`. -/
def min_speed : ℝ := -0.5

/-- `self.max_yaw_rate`. -/
def max_yaw_rate : ℝ := 40.0 * Real.pi / 180.0

/-- `self.max_accel`. -/
def max_accel : ℝ := 0.2

/-- `self.max_dyaw_rate`. -/
def max_dyaw_rate : ℝ := 40.0 * Real.pi / 180.0

/-- `self.v_resolution`. -/
def v_resolution : ℝ := 0.01

/-- `self.yaw_rate_resolution`. -/
def yaw_rate_resolution : ℝ := 0.1 * Real.pi / 180.0

/-- `self.dt`. -/
def dt : ℝ := 0.1

/-- `self.predict_time`. -/
def predict_time : ℝ := 3.0

/-- `self.to_goal_cost_gain`. -/
def to_goal_cost_gain : ℝ := 0.15

/-- `self.speed_cost_gain`. -/
def speed_cost_gain : ℝ := 1.0

/-- `self.obstacle_cost_gain`. -/
def obstacle_cost_gain : ℝ := 1.0

/-- The state array `[x, y, yaw, v, omega]`. -/
structure KState where
  x : ℝ
  y : ℝ
  yaw : ℝ
  v : ℝ
  omega : ℝ

/-- `DWAPlanner.motion`: one unicycle integration step. -/
def motion (s : KState) (u : ℝ × ℝ) (dtv : ℝ) : KState :=
  { x := s.x + u.1 * Real.cos s.yaw * dtv
    y := s.y + u.1 * Real.sin s.yaw * dtv
    yaw := s.yaw + u.2 * dtv
    v := u.1
    omega := u.2 }

/-- `DWAPlanner.calc_dynamic_window`: `(min_v, max_v, min_yaw_rate, max_yaw_rate)`. -/
def calc_dynamic_window (s : KState) : ℝ × ℝ × ℝ × ℝ :=
  (max min_speed (s.v - max_accel * dt),
   min max_speed (s.v + max_accel * dt),
   max (-max_yaw_rate) (s.omega - max_dyaw_rate * dt),
   min max_yaw_rate (s.omega + max_dyaw_rate * dt))

/-- The `while time <= self.predict_time` loop of `calc_trajectory`.  The
clock argument is the accumulated IEEE double scaled by `2⁵⁶` (it starts at
the Python int `0` and each pass executes `time += self.dt`, a rounded double
addition); the kinematics stay real-valued.  The recursion is fueled; fuel 31
outlasts the loop, which exits by its own test after 30 iterations
(`calc_trajectory_aux_fuel` shows any fuel beyond 31 gives the same list). -/
def calc_trajectory_aux (v yaw_rate : ℝ) : KState → ℕ → ℕ → List (ℝ × ℝ)
  | _, _, 0 => []
  | s, time, fuel + 1 =>
    if time ≤ predictScaled then
      let s' := motion s (v, yaw_rate) dt
      (s'.x, s'.y) :: calc_trajectory_aux v yaw_rate s' (flScaled (time + dtScaled)) fuel
    else []

/-- `DWAPlanner.calc_trajectory`. -/
def calc_trajectory (s : KState) (v yaw_rate : ℝ) : List (ℝ × ℝ) :=
  calc_trajectory_aux v yaw_rate s 0 31

/-- `DWAPlanner.calc_to_goal_cost`: Euclidean distance from `trajectory[-1]`
to the goal (the trajectories fed to it always have 30 points). -/
def calc_to_goal_cost (trajectory : List (ℝ × ℝ)) (goal : ℝ × ℝ) : ℝ :=
  Real.sqrt ((goal.1 - (trajectory.getLast?.getD (0, 0)).1) ^ 2 +
    (goal.2 - (trajectory.getLast?.getD (0, 0)).2) ^ 2)

/-- The running minimum of the nested loops of `calc_obstacle_cost`;
`⊤` is the initial `float("inf")`. -/
def minObstacleDist (obstacles : List (ℤ × ℤ)) (trajectory : List (ℝ × ℝ)) : WithTop ℝ :=
  trajectory.foldl
    (fun m pos => obstacles.foldl
      (fun m2 obs =>
        if ((Real.sqrt ((pos.1 - (obs.1 : ℝ)) ^ 2 + (pos.2 - (obs.2 : ℝ)) ^ 2) :
            ℝ) : WithTop ℝ) < m2
        then ((Real.sqrt ((pos.1 - (obs.1 : ℝ)) ^ 2 + (pos.2 - (obs.2 : ℝ)) ^ 2) :
            ℝ) : WithTop ℝ)
        else m2)
      m)
    ⊤

/-- `DWAPlanner.calc_obstacle_cost`: `1.0 / min_dist` unless the minimum
stayed `inf`; `none` models the `ZeroDivisionError` raised when the minimum
distance is exactly 0. -/
def calc_obstacle_cost (obstacles : List (ℤ × ℤ)) (trajectory : List (ℝ × ℝ)) :
    Option (WithTop ℝ) :=
  if minObstacleDist obstacles trajectory = ⊤ then some ⊤
  else if minObstacleDist obstacles trajectory = ((0 : ℝ) : WithTop ℝ) then none
  else some ((1.0 / (minObstacleDist obstacles trajectory).untop' 0 : ℝ) : WithTop ℝ)

/-- Total cost of one candidate `(v, yaw_rate)` from state `x` toward `goal`
(the body of the nested sampling loops of `calc_final_input`). -/
def candidate_cost (obstacles : List (ℤ × ℤ)) (x : KState) (goal : ℝ × ℝ)
    (v yaw_rate : ℝ) : Option (WithTop ℝ) :=
  (calc_obstacle_cost obstacles (calc_trajectory x v yaw_rate)).map fun ocost =>
    ((to_goal_cost_gain * calc_to_goal_cost (calc_trajectory x v yaw_rate) goal : ℝ) :
      WithTop ℝ) +
    ((speed_cost_gain * (max_speed - v) : ℝ) : WithTop ℝ) +
    ((obstacle_cost_gain : ℝ) : WithTop ℝ) * ocost

/-- `np.arange(a, b, step)` for the positive steps used here:
`a + i * step` for `0 ≤ i < ⌈(b - a) / step⌉`. -/
def arange (a b step : ℝ) : List ℝ :=
  (List.range (⌈(b - a) / step⌉).toNat).map fun i : ℕ => a + (i : ℝ) * step

/-- All sampled `(v, yaw_rate)` pairs in the enumeration order of the nested
`for` loops: ascending `v`, then ascending `yaw_rate`. -/
def candidate_pairs (x : KState) : List (ℝ × ℝ) :=
  (arange (calc_dynamic_window x).1 (calc_dynamic_window x).2.1 v_resolution).flatMap
    fun v =>
      (arange (calc_dynamic_window x).2.2.1 (calc_dynamic_window x).2.2.2
        yaw_rate_resolution).map fun w => (v, w)

/-- The loop accumulator of `calc_final_input`:
`(min_cost, best_u, best_trajectory)`. -/
structure BestAcc where
  min_cost : WithTop ℝ
  best_v : ℝ
  best_w : ℝ
  best_trajectory : List (ℝ × ℝ)

/-- One candidate evaluation and the `if min_cost >= final_cost` update. -/
def select_step (obstacles : List (ℤ × ℤ)) (x : KState) (goal : ℝ × ℝ)
    (acc : Option BestAcc) (c : ℝ × ℝ) : Option BestAcc :=
  acc.bind fun b =>
    (candidate_cost obstacles x goal c.1 c.2).map fun fc =>
      if b.min_cost ≥ fc then
        { min_cost := fc, best_v := c.1, best_w := c.2,
          best_trajectory := calc_trajectory x c.1 c.2 }
      else b

/-- `DWAPlanner.calc_final_input`; `none` propagates the obstacle-cost
`ZeroDivisionError`. -/
def calc_final_input (obstacles : List (ℤ × ℤ)) (x : KState) (goal : ℝ × ℝ) :
    Option (ℝ × ℝ × List (ℝ × ℝ)) :=
  ((candidate_pairs x).foldl (select_step obstacles x goal)
      (some { min_cost := ⊤, best_v := 0, best_w := 0, best_trajectory := [] })).map
    fun b => (b.best_v, b.best_w, b.best_trajectory)

/-- The `for _ in range(max_iterations)` loop of `DWAPlanner.find_path`.
`some none` is the Python `return None`; the outer `none` is an escaped
`ZeroDivisionError`. -/
def find_path_aux (obstacles : List (ℤ × ℤ)) (goal : ℝ × ℝ) :
    KState → List (ℝ × ℝ) → ℕ → Option (Option (List (ℝ × ℝ)))
  | _, _, 0 => some none
  | x, path, n + 1 =>
    match calc_final_input obstacles x goal with
    | none => none
    | some u =>
      if Real.sqrt (((motion x (u.1, u.2.1) dt).x - goal.1) ^ 2 +
          ((motion x (u.1, u.2.1) dt).y - goal.2) ^ 2) ≤ 0.5 then
        some (some (path ++ [((motion x (u.1, u.2.1) dt).x, (motion x (u.1, u.2.1) dt).y)]))
      else
        find_path_aux obstacles goal (motion x (u.1, u.2.1) dt)
          (path ++ [((motion x (u.1, u.2.1) dt).x, (motion x (u.1, u.2.1) dt).y)]) n

/-- `DWAPlanner.find_path`: the state starts at `(start.x, start.y, start.yaw)`
with velocity 0 and yaw rate 0, and the path starts at the start position. -/
def find_path (obstacles : List (ℤ × ℤ)) (start : ℝ × ℝ × ℝ) (goal : ℝ × ℝ)
    (max_iterations : ℕ) : Option (Option (List (ℝ × ℝ))) :=
  find_path_aux obstacles goal
    { x := start.1, y := start.2.1, yaw := start.2.2, v := 0.0, omega := 0.0 }
    [(start.1, start.2.1)] max_iterations

/-- The sequence of kinematic states the `find_path` loop visits, starting
from `x`; `none` once the obstacle-cost exception has fired. -/
def trace (obstacles : List (ℤ × ℤ)) (goal : ℝ × ℝ) : KState → ℕ → Option KState
  | x, 0 => some x
  | x, n + 1 =>
    match calc_final_input obstacles x goal with
    | none => none
    | some u => trace obstacles goal (motion x (u.1, u.2.1) dt) n

/-- The success test of one control cycle: within 0.5 of the goal. -/
def hits (s : KState) (goal : ℝ × ℝ) : Prop :=
  Real.sqrt ((s.x - goal.1) ^ 2 + (s.y - goal.2) ^ 2) ≤ 0.5

end

set_option maxRecDepth 100000

/-- After 30 executions of `time += self.dt` the clock reads
`3 + 96·2⁻⁵⁶ = 3.0000000000000013`, which fails the `time <= 3.0` test,
while the value after 29 still passes: the loop body runs exactly 30
times. -/
theorem timeSeq_thirty :
    timeSeq 30 = 3 * 2 ^ 56 + 96 ∧ predictScaled < timeSeq 30 ∧
      timeSeq 29 ≤ predictScaled := by decide

theorem stepCount_run : stepCount 0 31 = 30 := by decide

theorem calc_trajectory_aux_length (v w : ℝ) :
    ∀ (fuel : ℕ) (s : KState) (t : ℕ),
      (calc_trajectory_aux v w s t fuel).length = stepCount t fuel := by
  intro fuel
  induction fuel with
  | zero =>
    intro s t
    rfl
  | succ f ih =>
    intro s t
    by_cases h : t ≤ predictScaled
    · simp only [calc_trajectory_aux, stepCount, if_pos h, List.length_cons, ih]
    · simp only [calc_trajectory_aux, stepCount, if_neg h, List.length_nil]

/-- Fuel sufficiency: once the loop exits by its own test within the fuel
bound, adding fuel changes nothing; with `stepCount 0 31 = 30 < 31` this
makes `calc_trajectory`'s fuel 31 an exact rendering of the `while` loop. -/
theorem calc_trajectory_aux_fuel (v w : ℝ) :
    ∀ (fuel : ℕ) (s : KState) (t : ℕ), stepCount t fuel < fuel →
      ∀ k, calc_trajectory_aux v w s t (fuel + k) = calc_trajectory_aux v w s t fuel := by
  intro fuel
  induction fuel with
  | zero =>
    intro s t h
    simp [stepCount] at h
  | succ f ih =>
    intro s t h k
    by_cases hc : t ≤ predictScaled
    · have h' : stepCount (flScaled (t + dtScaled)) f < f := by
        simp only [stepCount, if_pos hc] at h
        omega
      rw [show f + 1 + k = (f + k) + 1 by omega]
      simp only [calc_trajectory_aux, if_pos hc]
      rw [ih (motion s (v, w) dt) (flScaled (t + dtScaled)) h' k]
    · rw [show f + 1 + k = (f + k) + 1 by omega]
      simp only [calc_trajectory_aux, if_neg hc]

/-- C8: for every initial state and candidate control, the trajectory
produced by `calc_trajectory` has `⌈predict_time / dt⌉ = 30` points: the
loop clock accumulates IEEE doubles, and after 30 additions of the double
`0.1` it exceeds `3.0` (`timeSeq_thirty`), so the inclusive
`while time <= predict_time` bound admits exactly 30 iterations. -/
theorem dwa_trajectory_length (x : KState) (v w : ℝ) :
    (calc_trajectory x v w).length = (⌈predict_time / dt⌉).toNat ∧
    (calc_trajectory x v w).length = 30 := by
  have h : (calc_trajectory x v w).length = 30 := by
    rw [calc_trajectory, calc_trajectory_aux_length v w 31 x 0, stepCount_run]
  refine ⟨?_, h⟩
  rw [h, show (⌈predict_time / dt⌉ : ℤ) = 30 by norm_num [predict_time, dt]]
  rfl

theorem minObstacleDist_nil (trajectory : List (ℝ × ℝ)) :
    minObstacleDist [] trajectory = ⊤ := by
  unfold minObstacleDist
  induction trajectory with
  | nil => rfl
  | cons p t ih =>
    simp only [List.foldl_cons, List.foldl_nil]
    simpa using ih

theorem obstacle_cost_nil (trajectory : List (ℝ × ℝ)) :
    calc_obstacle_cost [] trajectory = some ⊤ := by
  unfold calc_obstacle_cost
  rw [minObstacleDist_nil]
  simp

/-- C2 (amended): with an empty static obstacle set, `calc_obstacle_cost`
returns `float("inf")` (`min_dist` never leaves its initial `inf`), not 0, so
every candidate's total cost becomes infinite. -/
theorem dwa_obstacle_cost_empty (trajectory : List (ℝ × ℝ)) :
    calc_obstacle_cost [] trajectory = some ⊤ :=
  obstacle_cost_nil trajectory

/-- C2 counterexample: on an empty obstacle set the cost is not 0. -/
theorem dwa_obstacle_cost_empty_counterexample :
    calc_obstacle_cost [] [((0 : ℝ), (0 : ℝ))] ≠ some ((0 : ℝ) : WithTop ℝ) := by
  have hnil : minObstacleDist [] [((0 : ℝ), (0 : ℝ))] = ⊤ := rfl
  unfold calc_obstacle_cost
  rw [hnil]
  simp

theorem foldl_le_acc_of_step {α β : Type} [Preorder α] (g : α → β → α)
    (hstep : ∀ m b, g m b ≤ m) (l : List β) (m : α) : l.foldl g m ≤ m := by
  induction l generalizing m with
  | nil => exact le_refl m
  | cons b t ih => exact le_trans (ih (g m b)) (hstep m b)

theorem foldl_min_le_acc {α β : Type} [LinearOrder α] (f : β → α) (l : List β) (m : α) :
    l.foldl (fun acc b => if f b < acc then f b else acc) m ≤ m :=
  foldl_le_acc_of_step _ (fun m2 b => by by_cases h : f b < m2 <;> simp [h, le_of_lt]) l m

theorem foldl_min_le_mem {α β : Type} [LinearOrder α] (f : β → α) (l : List β) :
    ∀ (m : α) {b : β}, b ∈ l →
    l.foldl (fun acc b => if f b < acc then f b else acc) m ≤ f b := by
  induction l with
  | nil =>
    intro m b hb
    simp at hb
  | cons hd t ih =>
    intro m b hb
    rcases List.mem_cons.mp hb with rfl | hb
    · simp only [List.foldl_cons]
      by_cases h : f b < m
      · simp only [if_pos h]
        exact foldl_min_le_acc f t (f b)
      · simp only [if_neg h]
        exact le_trans (foldl_min_le_acc f t m) (not_lt.mp h)
    · simp only [List.foldl_cons]
      exact ih _ hb

theorem foldl_min_lb {α β : Type} [LinearOrder α] (f : β → α) :
    ∀ (l : List β) (m c : α), c ≤ m → (∀ b ∈ l, c ≤ f b) →
    c ≤ l.foldl (fun acc b => if f b < acc then f b else acc) m := by
  intro l
  induction l with
  | nil => exact fun m c hm _ => hm
  | cons hd t ih =>
    intro m c hm hf
    simp only [List.foldl_cons]
    refine ih _ c ?_ (fun b hb => hf b (List.mem_cons_of_mem _ hb))
    by_cases h : f hd < m
    · simp only [if_pos h]
      exact hf hd (by simp)
    · simp only [if_neg h]
      exact hm

theorem minObstacleDist_le {obstacles : List (ℤ × ℤ)} {pos : ℝ × ℝ} {obs : ℤ × ℤ}
    (hobs : obs ∈ obstacles) :
    ∀ (traj : List (ℝ × ℝ)), pos ∈ traj →
    minObstacleDist obstacles traj ≤
      ((Real.sqrt ((pos.1 - (obs.1 : ℝ)) ^ 2 + (pos.2 - (obs.2 : ℝ)) ^ 2) : ℝ) : WithTop ℝ) := by
  have haux : ∀ (t : List (ℝ × ℝ)) (m : WithTop ℝ), pos ∈ t →
      t.foldl
        (fun m2 p => obstacles.foldl
          (fun m3 o =>
            if ((Real.sqrt ((p.1 - (o.1 : ℝ)) ^ 2 + (p.2 - (o.2 : ℝ)) ^ 2) :
                ℝ) : WithTop ℝ) < m3
            then ((Real.sqrt ((p.1 - (o.1 : ℝ)) ^ 2 + (p.2 - (o.2 : ℝ)) ^ 2) :
                ℝ) : WithTop ℝ)
            else m3)
          m2)
        m ≤
      ((Real.sqrt ((pos.1 - (obs.1 : ℝ)) ^ 2 + (pos.2 - (obs.2 : ℝ)) ^ 2) : ℝ) : WithTop ℝ) := by
    intro t
    induction t with
    | nil =>
      intro m hm
      simp at hm
    | cons hd tl ih =>
      intro m hm
      rcases List.mem_cons.mp hm with rfl | hp
      · simp only [List.foldl_cons]
        refine le_trans (foldl_le_acc_of_step _ (fun m2 q => ?_) tl _) ?_
        · exact foldl_min_le_acc
            (fun o : ℤ × ℤ =>
              ((Real.sqrt ((q.1 - (o.1 : ℝ)) ^ 2 + (q.2 - (o.2 : ℝ)) ^ 2) : ℝ) : WithTop ℝ))
            obstacles m2
        · exact foldl_min_le_mem
            (fun o : ℤ × ℤ =>
              ((Real.sqrt ((pos.1 - (o.1 : ℝ)) ^ 2 + (pos.2 - (o.2 : ℝ)) ^ 2) : ℝ) : WithTop ℝ))
            obstacles _ hobs
      · simp only [List.foldl_cons]
        exact ih _ hp
  intro traj hpos
  exact haux traj ⊤ hpos

theorem minObstacleDist_nonneg (obstacles : List (ℤ × ℤ)) (traj : List (ℝ × ℝ)) :
    ((0 : ℝ) : WithTop ℝ) ≤ minObstacleDist obstacles traj := by
  unfold minObstacleDist
  have haux : ∀ (t : List (ℝ × ℝ)) (m : WithTop ℝ), ((0 : ℝ) : WithTop ℝ) ≤ m →
      ((0 : ℝ) : WithTop ℝ) ≤ t.foldl
        (fun m2 pos => obstacles.foldl
          (fun m3 obs =>
            if ((Real.sqrt ((pos.1 - (obs.1 : ℝ)) ^ 2 + (pos.2 - (obs.2 : ℝ)) ^ 2) :
                ℝ) : WithTop ℝ) < m3
            then ((Real.sqrt ((pos.1 - (obs.1 : ℝ)) ^ 2 + (pos.2 - (obs.2 : ℝ)) ^ 2) :
                ℝ) : WithTop ℝ)
            else m3)
          m2)
        m := by
    intro t
    induction t with
    | nil => exact fun m hm => hm
    | cons hd tl ih =>
      intro m hm
      simp only [List.foldl_cons]
      refine ih _ ?_
      refine foldl_min_lb
        (fun o : ℤ × ℤ =>
          ((Real.sqrt ((hd.1 - (o.1 : ℝ)) ^ 2 + (hd.2 - (o.2 : ℝ)) ^ 2) : ℝ) : WithTop ℝ))
        obstacles m _ hm (fun o _ => ?_)
      exact WithTop.coe_le_coe.mpr (Real.sqrt_nonneg _)
  exact haux traj ⊤ le_top

/-- C3 (amended): a trajectory whose minimum distance to some obstacle is
exactly 0 makes `calc_obstacle_cost` raise `ZeroDivisionError` from
`1.0 / min_dist` (modelled as `none`): the collision case is signalled by a
thrown exception, not by a returned `+inf` cost. -/
theorem dwa_obstacle_cost_zero (obstacles : List (ℤ × ℤ)) (traj : List (ℝ × ℝ))
    (pos : ℝ × ℝ) (obs : ℤ × ℤ) (hpos : pos ∈ traj) (hobs : obs ∈ obstacles)
    (hzero : (pos.1 - (obs.1 : ℝ)) ^ 2 + (pos.2 - (obs.2 : ℝ)) ^ 2 = 0) :
    calc_obstacle_cost obstacles traj = none := by
  have hle := minObstacleDist_le hobs traj hpos
  rw [hzero, Real.sqrt_zero] at hle
  have hge := minObstacleDist_nonneg obstacles traj
  have heq : minObstacleDist obstacles traj = ((0 : ℝ) : WithTop ℝ) := le_antisymm hle hge
  unfold calc_obstacle_cost
  rw [heq]
  simp

/-- Witness for C3's amended statement at a point obstacle on the trajectory. -/
theorem dwa_obstacle_cost_zero_witness :
    ((0 : ℝ), (0 : ℝ)) ∈ [((0 : ℝ), (0 : ℝ))] ∧
    ((0 : ℤ), (0 : ℤ)) ∈ [((0 : ℤ), (0 : ℤ))] ∧
    (((0 : ℝ), (0 : ℝ)).1 - ((((0 : ℤ), (0 : ℤ)).1 : ℤ) : ℝ)) ^ 2 +
      (((0 : ℝ), (0 : ℝ)).2 - ((((0 : ℤ), (0 : ℤ)).2 : ℤ) : ℝ)) ^ 2 = 0 ∧
    calc_obstacle_cost [((0 : ℤ), (0 : ℤ))] [((0 : ℝ), (0 : ℝ))] = none :=
  ⟨by simp, by simp, by norm_num,
    dwa_obstacle_cost_zero [((0 : ℤ), (0 : ℤ))] [((0 : ℝ), (0 : ℝ))]
      ((0 : ℝ), (0 : ℝ)) ((0 : ℤ), (0 : ℤ)) (by simp) (by simp) (by norm_num)⟩

/-- C3 counterexample: at a zero-distance obstacle the cost call does not
return `+inf` (it raises, modelled as `none`). -/
theorem dwa_obstacle_cost_zero_counterexample :
    calc_obstacle_cost [((0 : ℤ), (0 : ℤ))] [((0 : ℝ), (0 : ℝ))] ≠
      some (⊤ : WithTop ℝ) := by
  have heval : minObstacleDist [((0 : ℤ), (0 : ℤ))] [((0 : ℝ), (0 : ℝ))] =
      ((0 : ℝ) : WithTop ℝ) := by
    unfold minObstacleDist
    simp
  unfold calc_obstacle_cost
  rw [heval]
  simp

theorem select_fold_none (obstacles : List (ℤ × ℤ)) (x : KState) (goal : ℝ × ℝ) :
    ∀ l : List (ℝ × ℝ), l.foldl (select_step obstacles x goal) none = none := by
  intro l
  induction l with
  | nil => rfl
  | cons c t ih =>
    simp only [List.foldl_cons]
    have hstep : select_step obstacles x goal none c = none := rfl
    rw [hstep]
    exact ih

theorem select_fold_some (obstacles : List (ℤ × ℤ)) (x : KState) (goal : ℝ × ℝ) :
    ∀ (l : List (ℝ × ℝ)) (b0 b : BestAcc),
    l.foldl (select_step obstacles x goal) (some b0) = some b →
    ∀ c ∈ l, (candidate_cost obstacles x goal c.1 c.2).isSome := by
  intro l
  induction l with
  | nil =>
    intro b0 b _ c hc
    simp at hc
  | cons hd t ih =>
    intro b0 b h c hc
    simp only [List.foldl_cons] at h
    rcases hcost : candidate_cost obstacles x goal hd.1 hd.2 with _ | fc
    · have hstep : select_step obstacles x goal (some b0) hd = none := by
        simp [select_step, hcost]
      rw [hstep, select_fold_none] at h
      cases h
    · have hstep : select_step obstacles x goal (some b0) hd =
          some (if b0.min_cost ≥ fc then
            { min_cost := fc, best_v := hd.1, best_w := hd.2,
              best_trajectory := calc_trajectory x hd.1 hd.2 }
          else b0) := by
        simp [select_step, hcost]
      rw [hstep] at h
      rcases List.mem_cons.mp hc with rfl | hc2
      · rw [hcost]
        rfl
      · exact ih _ b h c hc2

/-- The selection fold keeps the last-enumerated candidate attaining the
running minimum: the returned accumulator is either the initial one with
every candidate beating it, or the last argmin of the list. -/
theorem select_fold_spec (obstacles : List (ℤ × ℤ)) (x : KState) (goal : ℝ × ℝ) :
    ∀ (l : List (ℝ × ℝ)),
    (∀ c ∈ l, (candidate_cost obstacles x goal c.1 c.2).isSome) →
    ∀ (b0 : BestAcc),
    ∃ b, l.foldl (select_step obstacles x goal) (some b0) = some b ∧
      ((b = b0 ∧ ∀ c ∈ l, ∀ fc, candidate_cost obstacles x goal c.1 c.2 = some fc →
          ¬(b0.min_cost ≥ fc)) ∨
        (∃ pre c post fc, l = pre ++ c :: post ∧
          candidate_cost obstacles x goal c.1 c.2 = some fc ∧
          b = { min_cost := fc, best_v := c.1, best_w := c.2,
                best_trajectory := calc_trajectory x c.1 c.2 } ∧
          b0.min_cost ≥ fc ∧
          (∀ d ∈ pre, ∀ fd, candidate_cost obstacles x goal d.1 d.2 = some fd → fc ≤ fd) ∧
          (∀ d ∈ post, ∀ fd, candidate_cost obstacles x goal d.1 d.2 = some fd → fc < fd))) := by
  intro l
  induction l using List.reverseRecOn with
  | nil =>
    intro _ b0
    exact ⟨b0, rfl, Or.inl ⟨rfl, by simp⟩⟩
  | append_singleton l c ih =>
    intro hall b0
    have halll : ∀ d ∈ l, (candidate_cost obstacles x goal d.1 d.2).isSome :=
      fun d hd => hall d (by simp [hd])
    obtain ⟨fc, hfc⟩ := Option.isSome_iff_exists.mp (hall c (by simp))
    obtain ⟨b, hb, hcases⟩ := ih halll b0
    rw [List.foldl_append, hb]
    simp only [List.foldl_cons, List.foldl_nil]
    have hstep : select_step obstacles x goal (some b) c =
        some (if b.min_cost ≥ fc then
          { min_cost := fc, best_v := c.1, best_w := c.2,
            best_trajectory := calc_trajectory x c.1 c.2 }
        else b) := by
      simp [select_step, hfc]
    rw [hstep]
    by_cases hbc : b.min_cost ≥ fc
    · rw [if_pos hbc]
      refine ⟨_, rfl, Or.inr ⟨l, c, [], fc, by simp, hfc, rfl, ?_, ?_, by simp⟩⟩
      · rcases hcases with ⟨rfl, _⟩ | ⟨pre, c', post, fcb, hsplit, hcb, hbval, hge, _, _⟩
        · exact hbc
        · rw [hbval] at hbc
          exact le_trans hbc hge
      · intro d hd fd hfd
        rcases hcases with ⟨rfl, hfail⟩ | ⟨pre, c', post, fcb, hsplit, hcb, hbval, hge, hpre, hpost⟩
        · exact le_of_lt (lt_of_le_of_lt hbc (lt_of_not_ge (hfail d hd fd hfd)))
        · rw [hbval] at hbc
          rw [hsplit] at hd
          rcases List.mem_append.mp hd with hd1 | hd2
          · exact le_trans hbc (hpre d hd1 fd hfd)
          · rcases List.mem_cons.mp hd2 with rfl | hd3
            · rw [hcb] at hfd
              have hfdeq : fcb = fd := Option.some.inj hfd
              rw [← hfdeq]
              exact hbc
            · exact le_of_lt (lt_of_le_of_lt hbc (hpost d hd3 fd hfd))
    · rw [if_neg hbc]
      refine ⟨b, rfl, ?_⟩
      rcases hcases with ⟨rfl, hfail⟩ | ⟨pre, c', post, fcb, hsplit, hcb, hbval, hge, hpre, hpost⟩
      · refine Or.inl ⟨rfl, ?_⟩
        intro d hd fd hfd
        rcases List.mem_append.mp hd with hd1 | hd2
        · exact hfail d hd1 fd hfd
        · rcases List.mem_cons.mp hd2 with rfl | hd3
          · rw [hfc] at hfd
            have hfdeq : fc = fd := Option.some.inj hfd
            rw [← hfdeq]
            exact hbc
          · simp at hd3
      · refine Or.inr ⟨pre, c', post ++ [c], fcb, by rw [hsplit]; simp, hcb, hbval, hge, hpre, ?_⟩
        intro d hd fd hfd
        rcases List.mem_append.mp hd with hd1 | hd2
        · exact hpost d hd1 fd hfd
        · rcases List.mem_cons.mp hd2 with rfl | hd3
          · rw [hfc] at hfd
            have hfdeq : fc = fd := Option.some.inj hfd
            rw [← hfdeq]
            rw [hbval] at hbc
            exact lt_of_not_ge hbc
          · simp at hd3

/-- Ascending lexicographic order on sampled `(v, yaw_rate)` pairs. -/
def PairLt (a b : ℝ × ℝ) : Prop := a.1 < b.1 ∨ (a.1 = b.1 ∧ a.2 < b.2)

theorem arange_pairwise {step : ℝ} (hstep : 0 < step) (a b : ℝ) :
    (arange a b step).Pairwise (· < ·) := by
  unfold arange
  rw [List.pairwise_map]
  refine (List.pairwise_lt_range _).imp ?_
  intro i j hij
  have hij' : (i : ℝ) < (j : ℝ) := by exact_mod_cast hij
  have := mul_lt_mul_of_pos_right hij' hstep
  linarith

theorem product_pairwise {vs ws : List ℝ} (hvs : vs.Pairwise (· < ·))
    (hws : ws.Pairwise (· < ·)) :
    (vs.flatMap fun v => ws.map fun w => (v, w)).Pairwise PairLt := by
  induction vs with
  | nil => simp
  | cons v vt ih =>
    rw [List.flatMap_cons, List.pairwise_append]
    refine ⟨?_, ih (List.Pairwise.of_cons hvs), ?_⟩
    · rw [List.pairwise_map]
      exact hws.imp fun hw => Or.inr ⟨rfl, hw⟩
    · intro p hp q hq
      obtain ⟨w1, _, rfl⟩ := List.mem_map.mp hp
      obtain ⟨v2, hv2, hq2⟩ := List.mem_flatMap.mp hq
      obtain ⟨w2, _, rfl⟩ := List.mem_map.mp hq2
      exact Or.inl (List.rel_of_pairwise_cons hvs hv2)

theorem final_input_some_all {obstacles : List (ℤ × ℤ)} {x : KState} {goal : ℝ × ℝ}
    {out : ℝ × ℝ × List (ℝ × ℝ)} (h : calc_final_input obstacles x goal = some out) :
    ∀ c ∈ candidate_pairs x, (candidate_cost obstacles x goal c.1 c.2).isSome := by
  unfold calc_final_input at h
  rcases hf : (candidate_pairs x).foldl (select_step obstacles x goal)
      (some { min_cost := ⊤, best_v := 0, best_w := 0, best_trajectory := [] }) with _ | b
  · rw [hf] at h
    cases h
  · exact select_fold_some obstacles x goal _ _ b hf

theorem arange_ne_nil {a b step : ℝ} (hstep : 0 < step) (hab : a < b) :
    arange a b step ≠ [] := by
  unfold arange
  have hpos : 0 < ⌈(b - a) / step⌉ := Int.ceil_pos.mpr (div_pos (by linarith) hstep)
  intro hcon
  rw [List.map_eq_nil_iff, List.range_eq_nil] at hcon
  omega

theorem candidate_pairs_ne_nil {x : KState}
    (hv : (calc_dynamic_window x).1 < (calc_dynamic_window x).2.1)
    (hw : (calc_dynamic_window x).2.2.1 < (calc_dynamic_window x).2.2.2) :
    candidate_pairs x ≠ [] := by
  unfold candidate_pairs
  have hv1 := arange_ne_nil (show (0 : ℝ) < v_resolution by norm_num [v_resolution]) hv
  have hw1 := arange_ne_nil
    (show (0 : ℝ) < yaw_rate_resolution by
      have := Real.pi_pos
      simp only [yaw_rate_resolution]
      positivity) hw
  obtain ⟨va, hva⟩ := List.exists_mem_of_ne_nil _ hv1
  obtain ⟨wa, hwa⟩ := List.exists_mem_of_ne_nil _ hw1
  refine List.ne_nil_of_mem (a := (va, wa)) ?_
  rw [List.mem_flatMap]
  exact ⟨va, hva, List.mem_map.mpr ⟨wa, hwa, rfl⟩⟩

/-- The selected output of `calc_final_input` is the last-enumerated candidate
attaining the minimum total cost. -/
theorem final_input_last_argmin {obstacles : List (ℤ × ℤ)} {x : KState} {goal : ℝ × ℝ}
    {v w : ℝ} {tr : List (ℝ × ℝ)}
    (hres : calc_final_input obstacles x goal = some (v, w, tr))
    (hne : candidate_pairs x ≠ []) :
    ∃ pre post fc, candidate_pairs x = pre ++ (v, w) :: post ∧
      candidate_cost obstacles x goal v w = some fc ∧
      tr = calc_trajectory x v w ∧
      (∀ d ∈ pre, ∀ fd, candidate_cost obstacles x goal d.1 d.2 = some fd → fc ≤ fd) ∧
      (∀ d ∈ post, ∀ fd, candidate_cost obstacles x goal d.1 d.2 = some fd → fc < fd) := by
  have hall := final_input_some_all hres
  obtain ⟨b, hb, hcases⟩ := select_fold_spec obstacles x goal (candidate_pairs x) hall
    { min_cost := ⊤, best_v := 0, best_w := 0, best_trajectory := [] }
  unfold calc_final_input at hres
  rw [hb, Option.map_some'] at hres
  have hout := Option.some.inj hres
  rcases hcases with ⟨hb0, hfail⟩ | ⟨pre, c, post, fc, hsplit, hc, hbval, _, hpre, hpost⟩
  · obtain ⟨c, hcmem⟩ := List.exists_mem_of_ne_nil _ hne
    obtain ⟨fc, hfc⟩ := Option.isSome_iff_exists.mp (hall c hcmem)
    exact absurd le_top (hfail c hcmem fc hfc)
  · have hv : c.1 = v := by
      rw [hbval] at hout
      exact congrArg (fun t => t.1) hout
    have hw : c.2 = w := by
      rw [hbval] at hout
      exact congrArg (fun t => t.2.1) hout
    have htr : calc_trajectory x c.1 c.2 = tr := by
      rw [hbval] at hout
      exact congrArg (fun t => t.2.2) hout
    have hcvw : c = (v, w) := by
      rw [← hv, ← hw]
    rw [hcvw] at hsplit hc
    rw [← htr, hv, hw]
    exact ⟨pre, post, fc, hsplit, hc, rfl, hpre, hpost⟩

/-- C9: the nested sampling loops enumerate `(v, yaw_rate)` pairs in ascending
lexicographic order, and because the update fires on `min_cost >= final_cost`,
the pair `calc_final_input` selects is the last-enumerated candidate attaining
the minimum total cost. -/
theorem dwa_selection (obstacles : List (ℤ × ℤ)) (x : KState) (goal : ℝ × ℝ)
    (v w : ℝ) (tr : List (ℝ × ℝ))
    (hres : calc_final_input obstacles x goal = some (v, w, tr))
    (hne : candidate_pairs x ≠ []) :
    (candidate_pairs x).Pairwise PairLt ∧
    ∃ pre post fc, candidate_pairs x = pre ++ (v, w) :: post ∧
      candidate_cost obstacles x goal v w = some fc ∧
      tr = calc_trajectory x v w ∧
      (∀ d ∈ pre, ∀ fd, candidate_cost obstacles x goal d.1 d.2 = some fd → fc ≤ fd) ∧
      (∀ d ∈ post, ∀ fd, candidate_cost obstacles x goal d.1 d.2 = some fd → fc < fd) := by
  constructor
  · unfold candidate_pairs
    refine product_pairwise (arange_pairwise ?_ _ _) (arange_pairwise ?_ _ _)
    · norm_num [v_resolution]
    · have := Real.pi_pos
      simp only [yaw_rate_resolution]
      positivity
  · exact final_input_last_argmin hres hne

theorem arange_mem_bounds {a b step : ℝ} (hstep : 0 < step) {y : ℝ}
    (hy : y ∈ arange a b step) : a ≤ y ∧ y < b := by
  unfold arange at hy
  obtain ⟨i, hi, rfl⟩ := List.mem_map.mp hy
  rw [List.mem_range] at hi
  constructor
  · have hnn : 0 ≤ (i : ℝ) * step := mul_nonneg (by positivity) (le_of_lt hstep)
    linarith
  · have hzpos : 0 < ⌈(b - a) / step⌉ := by
      by_contra hcon
      push_neg at hcon
      have hz : (⌈(b - a) / step⌉).toNat = 0 := by omega
      rw [hz] at hi
      omega
    have h1 : (i : ℤ) ≤ ⌈(b - a) / step⌉ - 1 := by omega
    have h2 : (i : ℝ) ≤ (⌈(b - a) / step⌉ : ℝ) - 1 := by exact_mod_cast h1
    have h3 : (⌈(b - a) / step⌉ : ℝ) < (b - a) / step + 1 := Int.ceil_lt_add_one _
    have hiz : (i : ℝ) < (b - a) / step := by linarith
    have h4 : (i : ℝ) * step < ((b - a) / step) * step := mul_lt_mul_of_pos_right hiz hstep
    rw [div_mul_cancel₀ _ (ne_of_gt hstep)] at h4
    linarith

theorem window_v_pos {x : KState} (h1 : min_speed ≤ x.v) (h2 : x.v ≤ max_speed) :
    (calc_dynamic_window x).1 < (calc_dynamic_window x).2.1 := by
  simp only [min_speed, max_speed] at h1 h2
  show max min_speed (x.v - max_accel * dt) < min max_speed (x.v + max_accel * dt)
  simp only [min_speed, max_speed, max_accel, dt]
  refine max_lt (lt_min ?_ ?_) (lt_min ?_ ?_) <;> norm_num <;> linarith

theorem window_w_pos {x : KState} (h1 : -max_yaw_rate ≤ x.omega)
    (h2 : x.omega ≤ max_yaw_rate) :
    (calc_dynamic_window x).2.2.1 < (calc_dynamic_window x).2.2.2 := by
  have hp := Real.pi_pos
  simp only [max_yaw_rate] at h1 h2
  show max (-max_yaw_rate) (x.omega - max_dyaw_rate * dt) <
    min max_yaw_rate (x.omega + max_dyaw_rate * dt)
  simp only [max_yaw_rate, max_dyaw_rate, dt]
  refine max_lt (lt_min ?_ ?_) (lt_min ?_ ?_) <;> nlinarith

theorem final_input_mem {obstacles : List (ℤ × ℤ)} {x : KState} {goal : ℝ × ℝ}
    {v w : ℝ} {tr : List (ℝ × ℝ)}
    (hres : calc_final_input obstacles x goal = some (v, w, tr))
    (hne : candidate_pairs x ≠ []) :
    (v, w) ∈ candidate_pairs x := by
  obtain ⟨pre, post, fc, hsplit, _⟩ := final_input_last_argmin hres hne
  rw [hsplit]
  simp

/-- C7: the `(v, ω)` pair selected by `calc_final_input` lies within the
dynamic window computed that step, the window lies within the absolute hard
limits, and each window bound is the tighter of the hard limit and the
acceleration-reachable bound from the current state. -/
theorem dwa_window_containment (obstacles : List (ℤ × ℤ)) (x : KState) (goal : ℝ × ℝ)
    (v w : ℝ) (tr : List (ℝ × ℝ))
    (hv : min_speed ≤ x.v ∧ x.v ≤ max_speed)
    (hw : -max_yaw_rate ≤ x.omega ∧ x.omega ≤ max_yaw_rate)
    (hres : calc_final_input obstacles x goal = some (v, w, tr)) :
    ((calc_dynamic_window x).1 ≤ v ∧ v ≤ (calc_dynamic_window x).2.1) ∧
    ((calc_dynamic_window x).2.2.1 ≤ w ∧ w ≤ (calc_dynamic_window x).2.2.2) ∧
    (min_speed ≤ (calc_dynamic_window x).1 ∧ (calc_dynamic_window x).2.1 ≤ max_speed) ∧
    (-max_yaw_rate ≤ (calc_dynamic_window x).2.2.1 ∧
      (calc_dynamic_window x).2.2.2 ≤ max_yaw_rate) ∧
    (calc_dynamic_window x).1 = max min_speed (x.v - max_accel * dt) ∧
    (calc_dynamic_window x).2.1 = min max_speed (x.v + max_accel * dt) ∧
    (calc_dynamic_window x).2.2.1 = max (-max_yaw_rate) (x.omega - max_dyaw_rate * dt) ∧
    (calc_dynamic_window x).2.2.2 = min max_yaw_rate (x.omega + max_dyaw_rate * dt) := by
  have hne := candidate_pairs_ne_nil (window_v_pos hv.1 hv.2) (window_w_pos hw.1 hw.2)
  have hmem := final_input_mem hres hne
  unfold candidate_pairs at hmem
  rw [List.mem_flatMap] at hmem
  obtain ⟨v', hv', hw'⟩ := hmem
  obtain ⟨w', hw'', heq⟩ := List.mem_map.mp hw'
  have hveq : v' = v := by
    have := congrArg Prod.fst heq
    simpa using this
  have hweq : w' = w := by
    have := congrArg Prod.snd heq
    simpa using this
  subst hveq
  subst hweq
  have hvb := arange_mem_bounds (by norm_num [v_resolution]) hv'
  have hwb := arange_mem_bounds
    (show (0 : ℝ) < yaw_rate_resolution by
      have := Real.pi_pos
      simp only [yaw_rate_resolution]
      positivity) hw''
  refine ⟨⟨hvb.1, le_of_lt hvb.2⟩, ⟨hwb.1, le_of_lt hwb.2⟩, ⟨le_max_left _ _, min_le_left _ _⟩,
    ⟨le_max_left _ _, min_le_left _ _⟩, rfl, rfl, rfl, rfl⟩

theorem find_path_aux_spec (obstacles : List (ℤ × ℤ)) (goal : ℝ × ℝ) :
    ∀ (N : ℕ) (x : KState) (path : List (ℝ × ℝ)),
    (find_path_aux obstacles goal x path N = some none ↔
      ∀ k < N, ∃ y, trace obstacles goal x (k + 1) = some y ∧ ¬ hits y goal) ∧
    ((∃ p, find_path_aux obstacles goal x path N = some (some p)) ↔
      ∃ k < N, (∃ y, trace obstacles goal x (k + 1) = some y ∧ hits y goal) ∧
        ∀ j < k, ∃ y, trace obstacles goal x (j + 1) = some y ∧ ¬ hits y goal) := by
  intro N
  induction N with
  | zero =>
    intro x path
    constructor
    · constructor
      · intro _ k hk
        omega
      · intro _
        rfl
    · constructor
      · rintro ⟨p, hp⟩
        cases hp
      · rintro ⟨k, hk, _⟩
        omega
  | succ n ih =>
    intro x path
    rcases hfi : calc_final_input obstacles x goal with _ | u
    · have heq : find_path_aux obstacles goal x path (n + 1) = none := by
        simp [find_path_aux, hfi]
      have htr : ∀ k, trace obstacles goal x (k + 1) = none := by
        intro k
        simp [trace, hfi]
      constructor
      · rw [heq]
        constructor
        · intro hcon
          cases hcon
        · intro hall
          obtain ⟨y, hy, _⟩ := hall 0 (by omega)
          rw [htr 0] at hy
          cases hy
      · rw [heq]
        constructor
        · rintro ⟨p, hp⟩
          cases hp
        · rintro ⟨k, hk, ⟨y, hy, _⟩, _⟩
          rw [htr k] at hy
          cases hy
    · have hstep1 : ∀ k, trace obstacles goal x (k + 1) =
          trace obstacles goal (motion x (u.1, u.2.1) dt) k := by
        intro k
        simp [trace, hfi]
      have htr0 : trace obstacles goal (motion x (u.1, u.2.1) dt) 0 =
          some (motion x (u.1, u.2.1) dt) := rfl
      by_cases hhit : Real.sqrt (((motion x (u.1, u.2.1) dt).x - goal.1) ^ 2 +
          ((motion x (u.1, u.2.1) dt).y - goal.2) ^ 2) ≤ 0.5
      · have heq : find_path_aux obstacles goal x path (n + 1) =
            some (some (path ++
              [((motion x (u.1, u.2.1) dt).x, (motion x (u.1, u.2.1) dt).y)])) := by
          simp only [find_path_aux, hfi]
          rw [if_pos hhit]
        constructor
        · rw [heq]
          constructor
          · intro hcon
            cases Option.some.inj hcon
          · intro hall
            obtain ⟨y, hy, hny⟩ := hall 0 (by omega)
            rw [hstep1 0, htr0] at hy
            obtain rfl : motion x (u.1, u.2.1) dt = y := Option.some.inj hy
            exact absurd hhit hny
        · rw [heq]
          constructor
          · intro _
            refine ⟨0, by omega, ⟨motion x (u.1, u.2.1) dt, ?_, hhit⟩, ?_⟩
            · rw [hstep1 0, htr0]
            · intro j hj
              omega
          · intro _
            exact ⟨_, rfl⟩
      · have heq : find_path_aux obstacles goal x path (n + 1) =
            find_path_aux obstacles goal (motion x (u.1, u.2.1) dt)
              (path ++ [((motion x (u.1, u.2.1) dt).x, (motion x (u.1, u.2.1) dt).y)]) n := by
          simp only [find_path_aux, hfi]
          rw [if_neg hhit]
        obtain ⟨ih1, ih2⟩ := ih (motion x (u.1, u.2.1) dt)
          (path ++ [((motion x (u.1, u.2.1) dt).x, (motion x (u.1, u.2.1) dt).y)])
        constructor
        · rw [heq, ih1]
          constructor
          · intro hall k hk
            cases k with
            | zero =>
              refine ⟨motion x (u.1, u.2.1) dt, ?_, hhit⟩
              rw [hstep1 0, htr0]
            | succ k2 =>
              rw [hstep1 (k2 + 1)]
              exact hall k2 (by omega)
          · intro hall k hk
            have hk1 := hall (k + 1) (by omega)
            rw [hstep1 (k + 1)] at hk1
            exact hk1
        · rw [heq, ih2]
          constructor
          · rintro ⟨k, hk, hhity, hmiss⟩
            refine ⟨k + 1, by omega, ?_, ?_⟩
            · rw [hstep1 (k + 1)]
              exact hhity
            · intro j hj
              cases j with
              | zero =>
                refine ⟨motion x (u.1, u.2.1) dt, ?_, hhit⟩
                rw [hstep1 0, htr0]
              | succ j2 =>
                rw [hstep1 (j2 + 1)]
                exact hmiss j2 (by omega)
          · rintro ⟨k, hk, hhity, hmiss⟩
            cases k with
            | zero =>
              obtain ⟨y, hy, hyh⟩ := hhity
              rw [hstep1 0, htr0] at hy
              obtain rfl : motion x (u.1, u.2.1) dt = y := Option.some.inj hy
              exact absurd hyh hhit
            | succ k2 =>
              refine ⟨k2, by omega, ?_, ?_⟩
              · rw [← hstep1 (k2 + 1)]
                exact hhity
              · intro j hj
                have hj1 := hmiss (j + 1) (by omega)
                rw [hstep1 (j + 1)] at hj1
                exact hj1

/-- C5: `DWAPlanner.find_path` terminates — the loop is bounded by
`max_iterations`; it returns a path exactly when some control cycle first
brings the advanced position within Euclidean distance 0.5 of the goal, and
returns `None` exactly when all `max_iterations` cycles complete without
reaching that tolerance (an obstacle-collision exception instead aborts the
run and never yields `None`). -/
theorem dwa_find_path_budget (obstacles : List (ℤ × ℤ)) (start : ℝ × ℝ × ℝ)
    (goal : ℝ × ℝ) (N : ℕ) :
    (find_path obstacles start goal N = some none ↔
      ∀ k < N, ∃ y, trace obstacles goal
        { x := start.1, y := start.2.1, yaw := start.2.2, v := 0.0, omega := 0.0 }
        (k + 1) = some y ∧ ¬ hits y goal) ∧
    ((∃ p, find_path obstacles start goal N = some (some p)) ↔
      ∃ k < N, (∃ y, trace obstacles goal
          { x := start.1, y := start.2.1, yaw := start.2.2, v := 0.0, omega := 0.0 }
          (k + 1) = some y ∧ hits y goal) ∧
        ∀ j < k, ∃ y, trace obstacles goal
          { x := start.1, y := start.2.1, yaw := start.2.2, v := 0.0, omega := 0.0 }
          (j + 1) = some y ∧ ¬ hits y goal) :=
  find_path_aux_spec obstacles goal N
    { x := start.1, y := start.2.1, yaw := start.2.2, v := 0.0, omega := 0.0 }
    [(start.1, start.2.1)]

theorem find_path_aux_head (obstacles : List (ℤ × ℤ)) (goal : ℝ × ℝ) :
    ∀ (N : ℕ) (x : KState) (path p : List (ℝ × ℝ)), path ≠ [] →
    find_path_aux obstacles goal x path N = some (some p) → p.head? = path.head? := by
  intro N
  induction N with
  | zero =>
    intro x path p _ hp
    cases Option.some.inj hp
  | succ n ih =>
    intro x path p hne hp
    rcases hfi : calc_final_input obstacles x goal with _ | u
    · rw [show find_path_aux obstacles goal x path (n + 1) = none by
        simp [find_path_aux, hfi]] at hp
      cases hp
    · by_cases hhit : Real.sqrt (((motion x (u.1, u.2.1) dt).x - goal.1) ^ 2 +
          ((motion x (u.1, u.2.1) dt).y - goal.2) ^ 2) ≤ 0.5
      · rw [show find_path_aux obstacles goal x path (n + 1) =
            some (some (path ++
              [((motion x (u.1, u.2.1) dt).x, (motion x (u.1, u.2.1) dt).y)])) by
          simp only [find_path_aux, hfi]
          rw [if_pos hhit]] at hp
        have hpeq : path ++ [((motion x (u.1, u.2.1) dt).x, (motion x (u.1, u.2.1) dt).y)] = p :=
          Option.some.inj (Option.some.inj hp)
        rw [← hpeq]
        rcases path with _ | ⟨hd, t⟩
        · exact absurd rfl hne
        · simp
      · rw [show find_path_aux obstacles goal x path (n + 1) =
            find_path_aux obstacles goal (motion x (u.1, u.2.1) dt)
              (path ++ [((motion x (u.1, u.2.1) dt).x, (motion x (u.1, u.2.1) dt).y)]) n by
          simp only [find_path_aux, hfi]
          rw [if_neg hhit]] at hp
        have hhead := ih (motion x (u.1, u.2.1) dt)
          (path ++ [((motion x (u.1, u.2.1) dt).x, (motion x (u.1, u.2.1) dt).y)]) p
          (by simp) hp
        rw [hhead]
        rcases path with _ | ⟨hd, t⟩
        · exact absurd rfl hne
        · simp

/-- C10: `find_path` builds its kinematic state from `start` with velocity 0
and yaw rate 0 (no state survives between calls in the source: line 163 writes
a fresh array), so the first cycle's dynamic window is contained in the
acceleration box `[-max_accel*dt, max_accel*dt] x [-max_dyaw_rate*dt,
max_dyaw_rate*dt]`, and any returned path starts at the start position. -/
theorem dwa_initial_state (obstacles : List (ℤ × ℤ)) (start : ℝ × ℝ × ℝ)
    (goal : ℝ × ℝ) (N : ℕ) (p : List (ℝ × ℝ)) :
    (find_path obstacles start goal N =
      find_path_aux obstacles goal
        { x := start.1, y := start.2.1, yaw := start.2.2, v := 0.0, omega := 0.0 }
        [(start.1, start.2.1)] N) ∧
    (-(max_accel * dt) ≤ (calc_dynamic_window
        { x := start.1, y := start.2.1, yaw := start.2.2, v := 0.0, omega := 0.0 }).1 ∧
      (calc_dynamic_window
        { x := start.1, y := start.2.1, yaw := start.2.2, v := 0.0, omega := 0.0 }).2.1 ≤
        max_accel * dt ∧
      -(max_dyaw_rate * dt) ≤ (calc_dynamic_window
        { x := start.1, y := start.2.1, yaw := start.2.2, v := 0.0, omega := 0.0 }).2.2.1 ∧
      (calc_dynamic_window
        { x := start.1, y := start.2.1, yaw := start.2.2, v := 0.0, omega := 0.0 }).2.2.2 ≤
        max_dyaw_rate * dt) ∧
    (find_path obstacles start goal N = some (some p) →
      p.head? = some (start.1, start.2.1)) := by
  refine ⟨rfl, ⟨?_, ?_, ?_, ?_⟩, ?_⟩
  · show -(max_accel * dt) ≤ max min_speed ((0.0 : ℝ) - max_accel * dt)
    have h0 : (0.0 : ℝ) - max_accel * dt = -(max_accel * dt) := by ring
    rw [h0]
    exact le_max_right _ _
  · show min max_speed ((0.0 : ℝ) + max_accel * dt) ≤ max_accel * dt
    have h0 : (0.0 : ℝ) + max_accel * dt = max_accel * dt := by ring
    rw [h0]
    exact min_le_right _ _
  · show -(max_dyaw_rate * dt) ≤ max (-max_yaw_rate) ((0.0 : ℝ) - max_dyaw_rate * dt)
    have h0 : (0.0 : ℝ) - max_dyaw_rate * dt = -(max_dyaw_rate * dt) := by ring
    rw [h0]
    exact le_max_right _ _
  · show min max_yaw_rate ((0.0 : ℝ) + max_dyaw_rate * dt) ≤ max_dyaw_rate * dt
    have h0 : (0.0 : ℝ) + max_dyaw_rate * dt = max_dyaw_rate * dt := by ring
    rw [h0]
    exact min_le_right _ _
  · intro hp
    have hhead := find_path_aux_head obstacles goal N
      { x := start.1, y := start.2.1, yaw := start.2.2, v := 0.0, omega := 0.0 }
      [(start.1, start.2.1)] p (by simp) hp
    rw [hhead]
    rfl

/-- With no obstacles, every candidate's total cost is infinite: the obstacle
term is `inf` and it is added with gain 1. -/
theorem candidate_cost_nil (x : KState) (goal : ℝ × ℝ) (v w : ℝ) :
    candidate_cost [] x goal v w = some ⊤ := by
  unfold candidate_cost
  rw [obstacle_cost_nil, Option.map_some']
  have hg : ((obstacle_cost_gain : ℝ) : WithTop ℝ) ≠ 0 := by
    rw [Ne, WithTop.coe_eq_zero]
    norm_num [obstacle_cost_gain]
  rw [WithTop.mul_top hg, WithTop.add_top]

/-- When every candidate costs `⊤`, the `min_cost >= final_cost` update fires
on every iteration, so the fold keeps the last-enumerated pair. -/
theorem final_input_nil_obstacles (x : KState) (goal : ℝ × ℝ) {c : ℝ × ℝ}
    (hlast : (candidate_pairs x).getLast? = some c) :
    calc_final_input [] x goal = some (c.1, c.2, calc_trajectory x c.1 c.2) := by
  have hall : ∀ d ∈ candidate_pairs x, (candidate_cost [] x goal d.1 d.2).isSome := by
    intro d _
    rw [candidate_cost_nil]
    rfl
  obtain ⟨b, hb, hcases⟩ := select_fold_spec [] x goal (candidate_pairs x) hall
    { min_cost := ⊤, best_v := 0, best_w := 0, best_trajectory := [] }
  have hne : candidate_pairs x ≠ [] := by
    intro hcon
    rw [hcon] at hlast
    cases hlast
  rcases hcases with ⟨_, hfail⟩ | ⟨pre, c', post, fc, hsplit, hc, hbval, _, _, hpost⟩
  · obtain ⟨d, hd⟩ := List.exists_mem_of_ne_nil _ hne
    exact absurd le_top (hfail d hd ⊤ (candidate_cost_nil x goal d.1 d.2))
  · have hfc : fc = ⊤ := by
      rw [candidate_cost_nil] at hc
      exact (Option.some.inj hc).symm
    have hpost_nil : post = [] := by
      rcases post with _ | ⟨d, t⟩
      · rfl
      · have hlt := hpost d (by simp) ⊤ (candidate_cost_nil x goal d.1 d.2)
        rw [hfc] at hlt
        exact absurd hlt (lt_irrefl ⊤)
    subst hpost_nil
    have hlast' : (candidate_pairs x).getLast? = some c' := by
      rw [hsplit]
      exact List.getLast?_concat pre
    have hcc : c' = c := Option.some.inj (hlast'.symm.trans hlast)
    subst hcc
    unfold calc_final_input
    rw [hb, Option.map_some', hbval]

/-- The last sample `np.arange` yields. -/
theorem arange_getLast (a step : ℝ) {b : ℝ} {n : ℕ}
    (hn : (⌈(b - a) / step⌉).toNat = n + 1) :
    (arange a b step).getLast? = some (a + (n : ℝ) * step) := by
  unfold arange
  rw [hn, List.range_succ, List.map_append]
  simp

/-- The last pair of the nested-loop product is the pair of last elements. -/
theorem product_getLast {vs ws : List ℝ} {vl wl : ℝ}
    (hv : vs.getLast? = some vl) (hw : ws.getLast? = some wl) :
    (vs.flatMap fun v => ws.map fun w => (v, w)).getLast? = some (vl, wl) := by
  rcases List.eq_nil_or_concat vs with rfl | ⟨L, b, rfl⟩
  · cases hv
  · rw [List.concat_eq_append] at hv ⊢
    rw [List.getLast?_concat] at hv
    have hbl : b = vl := Option.some.inj hv
    subst hbl
    rw [List.flatMap_append]
    have h1 : ([b].flatMap fun v => ws.map fun w => (v, w)) = ws.map fun w => (b, w) := by
      simp
    rw [h1]
    have hwne : (ws.map fun w => (b, w)) ≠ [] := by
      intro hcon
      rw [List.map_eq_nil_iff] at hcon
      rw [hcon] at hw
      cases hw
    rw [List.getLast?_append_of_ne_nil _ hwne, List.getLast?_map, hw, Option.map_some']

/-- The dynamic window of the all-zero state. -/
theorem window_x0 :
    calc_dynamic_window ⟨0, 0, 0, 0, 0⟩ =
      (-(1 / 50), 1 / 50, -(Real.pi / 45), Real.pi / 45) := by
  show (max min_speed ((0 : ℝ) - max_accel * dt),
      min max_speed ((0 : ℝ) + max_accel * dt),
      max (-max_yaw_rate) ((0 : ℝ) - max_dyaw_rate * dt),
      min max_yaw_rate ((0 : ℝ) + max_dyaw_rate * dt)) =
    (-(1 / 50), 1 / 50, -(Real.pi / 45), Real.pi / 45)
  rw [show (0 : ℝ) - max_accel * dt = -(1 / 50) by norm_num [max_accel, dt],
    show (0 : ℝ) + max_accel * dt = 1 / 50 by norm_num [max_accel, dt],
    show (0 : ℝ) - max_dyaw_rate * dt = -(Real.pi / 45) by
      simp only [max_dyaw_rate, dt]; ring,
    show (0 : ℝ) + max_dyaw_rate * dt = Real.pi / 45 by
      simp only [max_dyaw_rate, dt]; ring,
    max_eq_right (show min_speed ≤ -(1 / 50) by norm_num [min_speed]),
    min_eq_right (show (1 / 50 : ℝ) ≤ max_speed by norm_num [max_speed]),
    max_eq_right (show -max_yaw_rate ≤ -(Real.pi / 45) by
      simp only [max_yaw_rate]; nlinarith [Real.pi_pos]),
    min_eq_right (show Real.pi / 45 ≤ max_yaw_rate by
      simp only [max_yaw_rate]; nlinarith [Real.pi_pos])]

/-- The zero-state velocity window holds 4 samples. -/
theorem v_count_x0 : (⌈((1 / 50 : ℝ) - -(1 / 50)) / v_resolution⌉).toNat = 3 + 1 := by
  rw [show ((1 / 50 : ℝ) - -(1 / 50)) / v_resolution = 4 by norm_num [v_resolution],
    show ⌈(4 : ℝ)⌉ = 4 by norm_num]
  rfl

/-- The zero-state yaw-rate window holds 80 samples. -/
theorem w_count_x0 :
    (⌈((Real.pi / 45 : ℝ) - -(Real.pi / 45)) / yaw_rate_resolution⌉).toNat = 79 + 1 := by
  rw [show ((Real.pi / 45 : ℝ) - -(Real.pi / 45)) / yaw_rate_resolution = 80 by
      simp only [yaw_rate_resolution]
      field_simp
      ring,
    show ⌈(80 : ℝ)⌉ = 80 by norm_num]
  rfl

theorem vlast_x0 : (arange (-(1 / 50)) (1 / 50) v_resolution).getLast? = some (1 / 100) := by
  rw [arange_getLast _ _ v_count_x0]
  norm_num [v_resolution]

theorem wlast_x0 :
    (arange (-(Real.pi / 45)) (Real.pi / 45) yaw_rate_resolution).getLast? =
      some (13 * Real.pi / 600) := by
  rw [arange_getLast _ _ w_count_x0,
    show -(Real.pi / 45) + ((79 : ℕ) : ℝ) * yaw_rate_resolution = 13 * Real.pi / 600 by
      simp only [yaw_rate_resolution]
      push_cast
      ring]

theorem pairs_x0_getLast :
    (candidate_pairs ⟨0, 0, 0, 0, 0⟩).getLast? = some (1 / 100, 13 * Real.pi / 600) := by
  unfold candidate_pairs
  rw [window_x0]
  exact product_getLast vlast_x0 wlast_x0

theorem pairs_x0_ne_nil : candidate_pairs ⟨0, 0, 0, 0, 0⟩ ≠ [] := by
  intro hcon
  have h := pairs_x0_getLast
  rw [hcon] at h
  cases h

/-- With no obstacles all candidates cost `⊤`, so the all-zero state selects
the last-enumerated pair `(0.01, 13π/600)`. -/
theorem final_input_x0 :
    calc_final_input [] ⟨0, 0, 0, 0, 0⟩ (0, 0) =
      some (1 / 100, 13 * Real.pi / 600,
        calc_trajectory ⟨0, 0, 0, 0, 0⟩ (1 / 100) (13 * Real.pi / 600)) :=
  final_input_nil_obstacles ⟨0, 0, 0, 0, 0⟩ (0, 0) pairs_x0_getLast

theorem dwa_selection_witness :
    (candidate_pairs ⟨0, 0, 0, 0, 0⟩).Pairwise PairLt ∧
    ∃ pre post fc, candidate_pairs ⟨0, 0, 0, 0, 0⟩ =
        pre ++ ((1 / 100 : ℝ), 13 * Real.pi / 600) :: post ∧
      candidate_cost [] ⟨0, 0, 0, 0, 0⟩ (0, 0) (1 / 100) (13 * Real.pi / 600) = some fc ∧
      calc_trajectory ⟨0, 0, 0, 0, 0⟩ (1 / 100) (13 * Real.pi / 600) =
        calc_trajectory ⟨0, 0, 0, 0, 0⟩ (1 / 100) (13 * Real.pi / 600) ∧
      (∀ d ∈ pre, ∀ fd,
        candidate_cost [] ⟨0, 0, 0, 0, 0⟩ (0, 0) d.1 d.2 = some fd → fc ≤ fd) ∧
      (∀ d ∈ post, ∀ fd,
        candidate_cost [] ⟨0, 0, 0, 0, 0⟩ (0, 0) d.1 d.2 = some fd → fc < fd) :=
  dwa_selection [] ⟨0, 0, 0, 0, 0⟩ (0, 0) (1 / 100) (13 * Real.pi / 600)
    (calc_trajectory ⟨0, 0, 0, 0, 0⟩ (1 / 100) (13 * Real.pi / 600))
    final_input_x0 pairs_x0_ne_nil

theorem dwa_window_containment_witness :
    ((calc_dynamic_window ⟨0, 0, 0, 0, 0⟩).1 ≤ 1 / 100 ∧
      (1 / 100 : ℝ) ≤ (calc_dynamic_window ⟨0, 0, 0, 0, 0⟩).2.1) ∧
    ((calc_dynamic_window ⟨0, 0, 0, 0, 0⟩).2.2.1 ≤ 13 * Real.pi / 600 ∧
      13 * Real.pi / 600 ≤ (calc_dynamic_window ⟨0, 0, 0, 0, 0⟩).2.2.2) ∧
    (min_speed ≤ (calc_dynamic_window ⟨0, 0, 0, 0, 0⟩).1 ∧
      (calc_dynamic_window ⟨0, 0, 0, 0, 0⟩).2.1 ≤ max_speed) ∧
    (-max_yaw_rate ≤ (calc_dynamic_window ⟨0, 0, 0, 0, 0⟩).2.2.1 ∧
      (calc_dynamic_window ⟨0, 0, 0, 0, 0⟩).2.2.2 ≤ max_yaw_rate) ∧
    (calc_dynamic_window ⟨0, 0, 0, 0, 0⟩).1 = max min_speed ((0 : ℝ) - max_accel * dt) ∧
    (calc_dynamic_window ⟨0, 0, 0, 0, 0⟩).2.1 = min max_speed ((0 : ℝ) + max_accel * dt) ∧
    (calc_dynamic_window ⟨0, 0, 0, 0, 0⟩).2.2.1 =
      max (-max_yaw_rate) ((0 : ℝ) - max_dyaw_rate * dt) ∧
    (calc_dynamic_window ⟨0, 0, 0, 0, 0⟩).2.2.2 =
      min max_yaw_rate ((0 : ℝ) + max_dyaw_rate * dt) := by
  refine dwa_window_containment [] ⟨0, 0, 0, 0, 0⟩ (0, 0) (1 / 100) (13 * Real.pi / 600)
    (calc_trajectory ⟨0, 0, 0, 0, 0⟩ (1 / 100) (13 * Real.pi / 600)) ⟨?_, ?_⟩ ⟨?_, ?_⟩
    final_input_x0
  · show min_speed ≤ (0 : ℝ)
    norm_num [min_speed]
  · show (0 : ℝ) ≤ max_speed
    norm_num [max_speed]
  · show -max_yaw_rate ≤ (0 : ℝ)
    rw [neg_nonpos]
    simp only [max_yaw_rate]
    positivity
  · show (0 : ℝ) ≤ max_yaw_rate
    simp only [max_yaw_rate]
    positivity

end DWA

end RoadAnalysis
